import Mathlib

/-!
Verification of the commission calculation engine of CommissionCalculator
(`src/services/calculator.ts`), a multi-level differential commission
settlement system.  The engine is embedded shallowly: JavaScript numbers are
modelled as exact rationals, the insertion-ordered `Map` of results as an
association list, and the `async` (but effect-free) main function as a pure
Lean function of its two arguments.
-/

namespace CommissionCalc

/-- Channel of a commission entry: `'casino' | 'slot' | 'losing'` (db.ts). -/
inductive Source where
  | casino
  | slot
  | losing
deriving DecidableEq, Repr

/-- Role of a commission entry: `'self' | 'upper'` (db.ts). -/
inductive Role where
  | self
  | upper
deriving DecidableEq, Repr

/-- `CalculationAmounts` (calculator.ts): per-channel input amounts. -/
structure CalculationAmounts where
  casino : ℚ
  slot : ℚ
  losing : ℚ
deriving DecidableEq, Repr

/-- `BatchInput` (calculator.ts): one member's input line.  At runtime the
performer id is the Firestore document id, a string, as built by
`useCalculator.ts` (the stale `performerId: number` annotation in
calculator.ts does not match what callers pass). -/
structure BatchInput where
  performerId : String
  amounts : CalculationAmounts
deriving DecidableEq, Repr

/-- `User` (db.ts), restricted to the fields the engine reads.  Display-only
fields (`loginId`, `memberName`, `level`, `memo`, `memoColor`) are omitted;
`id` is modelled as always present (a Firestore document id), matching the
non-null assertions `user.id!` in calculator.ts. -/
structure User where
  id : String
  name : String
  parentId : Option String
  casinoRate : ℚ
  slotRate : ℚ
  losingRate : ℚ
deriving DecidableEq, Repr

/-- `CalculationResult` (db.ts), the fields the engine produces
(`fromUserName` is never set by `calculateBatchCommission` and is omitted). -/
structure CalculationResult where
  userId : String
  userName : String
  amount : ℚ
  role : Role
  source : Source
  breakdown : String
deriving DecidableEq, Repr

/-- JavaScript `Math.round`: round half toward positive infinity. -/
def jsRound (x : ℚ) : ℤ := ⌊x + 1 / 2⌋

/-- Rendering of a rational for breakdown text.  Stands in for JavaScript's
`toLocaleString` / template-literal number formatting, which the engine only
concatenates into human-readable audit strings and never parses back. -/
def numStr (q : ℚ) : String :=
  toString q.num ++ (if q.den = 1 then "" else "/" ++ toString q.den)

/-- JavaScript `Array.prototype.find` specialised to looking a member up by
id (`allUsers.find(u => u.id === k)`): first match wins. -/
def findUserById : List User → String → Option User
  | [], _ => none
  | u :: rest, k => if u.id = k then some u else findUserById rest k

/-- First batch input with the given performer id (used on a reversed list
to model the last-wins `Map`). -/
def findInputByPid : List BatchInput → String → Option BatchInput
  | [], _ => none
  | i :: rest, k => if i.performerId = k then some i else findInputByPid rest k

/-- `inputMap.get(k) || zero-amounts` (calculator.ts step 1): the map is
built by `inputs.forEach(i => inputMap.set(i.performerId, i.amounts))`, so
for a duplicated performer id the last entry wins. -/
def inputMapGet (inputs : List BatchInput) (k : String) : CalculationAmounts :=
  ((findInputByPid inputs.reverse k).map BatchInput.amounts).getD ⟨0, 0, 0⟩

/-- Sum of the direct children's inputs (calculator.ts step 2): children are
the members whose `parentId` equals the current member's id. -/
def childrenSum (inputs : List BatchInput) (allUsers : List User) (uid : String) :
    CalculationAmounts :=
  (allUsers.filter (fun u => u.parentId = some uid)).foldl
    (fun acc child =>
      let ci := inputMapGet inputs child.id
      ⟨acc.casino + ci.casino, acc.slot + ci.slot, acc.losing + ci.losing⟩)
    ⟨0, 0, 0⟩

/-- NET computation for one input (calculator.ts step 2 loop body): own
input minus the direct children's inputs, dropped when the performer matches
no member or when all three NET channels are zero. -/
def netOf (inputs : List BatchInput) (allUsers : List User) (input : BatchInput) :
    Option BatchInput :=
  (findUserById allUsers input.performerId).bind fun user =>
    let cs := childrenSum inputs allUsers user.id
    let netC := input.amounts.casino - cs.casino
    let netS := input.amounts.slot - cs.slot
    let netL := input.amounts.losing - cs.losing
    if netC ≠ 0 ∨ netS ≠ 0 ∨ netL ≠ 0 then
      some ⟨user.id, ⟨netC, netS, netL⟩⟩
    else none

/-- The step-2 `for` loop of calculator.ts, pushing each kept NET input in
input order (`continue` on a dropped one). -/
def netLoop (inputs : List BatchInput) (allUsers : List User) :
    List BatchInput → List BatchInput
  | [] => []
  | i :: rest =>
    (netOf inputs allUsers i).elim (netLoop inputs allUsers rest) fun z =>
      z :: netLoop inputs allUsers rest

/-- The `netInputs` list of calculator.ts step 2. -/
def netInputs (inputs : List BatchInput) (allUsers : List User) : List BatchInput :=
  netLoop inputs allUsers inputs

/-- `addToResult` (calculator.ts): the results map is keyed by
`userId-source` (neither source name contains a dash, so the string key is
exactly the pair); an existing entry has its amount accumulated and its
breakdown extended, otherwise a new entry is appended.  The insertion-ordered
`Map` is modelled as its entry list. -/
def addToResult : List CalculationResult → String → String → ℚ → Role → Source →
    String → List CalculationResult
  | [], userId, userName, amount, role, source, breakdown =>
    [⟨userId, userName, amount, role, source, breakdown⟩]
  | e :: rest, userId, userName, amount, role, source, breakdown =>
    if e.userId = userId ∧ e.source = source then
      ⟨e.userId, e.userName, e.amount + amount, e.role, e.source,
        e.breakdown ++ "\n" ++ breakdown⟩ :: rest
    else
      e :: addToResult rest userId userName amount role source breakdown

/-- Rate selection (`rateKey` in calculator.ts step 3). -/
def rateOf : Source → User → ℚ
  | .casino, u => u.casinoRate
  | .slot, u => u.slotRate
  | .losing, u => u.losingRate

def sourceName : Source → String
  | .casino => "casino"
  | .slot => "slot"
  | .losing => "losing"

/-- The `selfBreakdown` string of calculator.ts step 3 A. -/
def selfBreakdownStr (performer : User) (typ : Source)
    (losingInput casinoExpense slotExpense amount performerRate performerComm : ℚ) :
    String :=
  match typ with
  | .losing =>
      "[" ++ performer.name ++ " 본인] Losing 베이스 = " ++ numStr losingInput ++
        " - (Casino비용 " ++ numStr casinoExpense ++ " + Slot비용 " ++
        numStr slotExpense ++ ") = " ++ numStr amount ++ "\n→ " ++ numStr amount ++
        " × " ++ numStr performerRate ++ "% = " ++ numStr performerComm
  | _ =>
      "[" ++ performer.name ++ " 본인] NET " ++ sourceName typ ++ " = " ++
        numStr amount ++ " × " ++ numStr performerRate ++ "% = " ++
        numStr performerComm

/-- The `upperBreakdown` string of calculator.ts step 3 B. -/
def upperBreakdownStr (parent : User) (performerName : String) (typ : Source)
    (amount parentRate childRate diffRate parentComm : ℚ) : String :=
  "[" ++ parent.name ++ " 차등] " ++ performerName ++ "의 NET " ++ sourceName typ ++
    " " ++ numStr amount ++ " × (" ++ numStr parentRate ++ "% - " ++
    numStr childRate ++ "%) = " ++ numStr amount ++ " × " ++ numStr diffRate ++
    "% = " ++ numStr parentComm

/-- The upline differential walk (calculator.ts step 3 B): follow `parentId`
links, paying `amount * (diffRate / 100)` whenever the rounded rate
difference over the running child rate is positive; otherwise the running
rate is raised when the parent's rate is higher, and nothing is emitted.
The stopping conditions mirror the source exactly: a missing parent pointer,
an empty-string pointer (falsy in the `while` condition), or a pointer that
matches no member stop the walk.  The fuel argument bounds the recursion;
on the acyclic member trees of the data model a parent chain visits distinct
members, so `allUsers.length` steps always suffice and the bound is inert. -/
def upperWalk (allUsers : List User) (typ : Source) (amount : ℚ) (performerName : String) :
    ℕ → ℚ → Option String → List CalculationResult → List CalculationResult
  | 0, _, _, rm => rm
  | _ + 1, _, none, rm => rm
  | fuel + 1, currentChildRate, some pid, rm =>
    if pid = "" then rm
    else
      (findUserById allUsers pid).elim rm fun parent =>
        let parentRate := rateOf typ parent
        let diffRate : ℚ := (jsRound ((parentRate - currentChildRate) * 10000) : ℚ) / 10000
        if 0 < diffRate then
          upperWalk allUsers typ amount performerName fuel parentRate parent.parentId
            (addToResult rm parent.id parent.name (amount * (diffRate / 100)) .upper typ
              (upperBreakdownStr parent performerName typ amount parentRate
                currentChildRate diffRate (amount * (diffRate / 100))))
        else
          upperWalk allUsers typ amount performerName fuel
            (if currentChildRate < parentRate then parentRate else currentChildRate)
            parent.parentId rm

/-- The per-channel distributed base (calculator.ts step 3 loop body):
casino and slot distribute the NET input directly; losing distributes the
adjusted base `losing - (casinoExpense + slotExpense)` computed with the
performer's own rates. -/
def channelAmount (performer : User) (am : CalculationAmounts) : Source → ℚ
  | .casino => am.casino
  | .slot => am.slot
  | .losing =>
    am.losing -
      (am.casino * (performer.casinoRate / 100) + am.slot * (performer.slotRate / 100))

/-- One channel of one NET input's distribution (the body of the
`['casino', 'slot', 'losing'].forEach` in calculator.ts step 3): skip a zero
amount, emit the performer's own commission, then walk the upline. -/
def processChannel (allUsers : List User) (performer : User) (am : CalculationAmounts)
    (rm : List CalculationResult) (typ : Source) : List CalculationResult :=
  let amount := channelAmount performer am typ
  if amount = 0 then rm
  else
    let performerRate := rateOf typ performer
    let performerComm := amount * (performerRate / 100)
    let rm1 := addToResult rm performer.id performer.name performerComm .self typ
      (selfBreakdownStr performer typ am.losing
        (am.casino * (performer.casinoRate / 100)) (am.slot * (performer.slotRate / 100))
        amount performerRate performerComm)
    upperWalk allUsers typ amount performer.name allUsers.length performerRate
      performer.parentId rm1

/-- One NET input's distribution pass (calculator.ts step 3 loop body):
skip an all-zero input or an unknown performer, then process the three
channels in order. -/
def processInput (allUsers : List User) (rm : List CalculationResult) (input : BatchInput) :
    List CalculationResult :=
  if input.amounts.casino = 0 ∧ input.amounts.slot = 0 ∧ input.amounts.losing = 0 then rm
  else
    (findUserById allUsers input.performerId).elim rm fun performer =>
      [Source.casino, Source.slot, Source.losing].foldl
        (processChannel allUsers performer input.amounts) rm

/-- Stable descending insertion by amount; a later element is placed after
every already-present element of greater or equal amount. -/
def insertDesc (x : CalculationResult) : List CalculationResult → List CalculationResult
  | [] => [x]
  | y :: ys => if x.amount ≤ y.amount then y :: insertDesc x ys else x :: y :: ys

/-- The final `sort((a, b) => b.amount - a.amount)` of calculator.ts step 4;
JavaScript's sort is stable, and a stable sort by a total preorder is unique,
so stable insertion sort models it exactly. -/
def sortByAmountDesc (l : List CalculationResult) : List CalculationResult :=
  l.foldl (fun acc x => insertDesc x acc) []

/-- `calculateBatchCommission` (calculator.ts).  The source function is
`async` but contains no awaits and touches no external state; it is the pure
function of its two arguments embedded here. -/
def calculateBatchCommission (inputs : List BatchInput) (allUsers : List User) :
    List CalculationResult :=
  sortByAmountDesc ((netInputs inputs allUsers).foldl (processInput allUsers) [])

/-- Member ids visited by the upline walk from a given parent pointer;
mirrors `upperWalk`'s navigation (same lookups, same stopping conditions,
same fuel discipline). -/
def visitedIds (allUsers : List User) : ℕ → Option String → List String
  | 0, _ => []
  | _ + 1, none => []
  | fuel + 1, some pid =>
    if pid = "" then []
    else
      (findUserById allUsers pid).elim [] fun parent =>
        parent.id :: visitedIds allUsers fuel parent.parentId

/-- The member ids one input's distribution pass can touch: its performer
plus the performer's upline. -/
def touchedIds (allUsers : List User) (input : BatchInput) : List String :=
  (findUserById allUsers input.performerId).elim [] fun performer =>
    performer.id :: visitedIds allUsers allUsers.length performer.parentId

/-- A member's lineage: the member itself plus its ancestor chain.  Computed
with one step of fuel slack over the engine's walks, so that even on
malformed (cyclic) member data it covers every member a walk can reach. -/
def lineageIds (allUsers : List User) (k : String) : List String :=
  (findUserById allUsers k).elim [] fun m =>
    m.id :: visitedIds allUsers (allUsers.length + 1) m.parentId

/-- Restatement of the NET rule in the words of the specification, for
comparison with the engine's `netOf`: per channel, NET is the performer's
own input minus the sum over its direct children (the members whose
`parentId` equals the performer's id) of those children's batch inputs, and
an input whose NET is zero in all three channels is dropped entirely. -/
def netSpecOf (inputs : List BatchInput) (allUsers : List User) (input : BatchInput) :
    Option BatchInput :=
  (findUserById allUsers input.performerId).bind fun user =>
    let children := allUsers.filter (fun u => u.parentId = some user.id)
    let netC := input.amounts.casino - (children.map fun c => (inputMapGet inputs c.id).casino).sum
    let netS := input.amounts.slot - (children.map fun c => (inputMapGet inputs c.id).slot).sum
    let netL := input.amounts.losing - (children.map fun c => (inputMapGet inputs c.id).losing).sum
    if netC = 0 ∧ netS = 0 ∧ netL = 0 then none
    else some ⟨user.id, ⟨netC, netS, netL⟩⟩

/-- Entries two result lists share for one member: the sublist for a user id. -/
def entriesFor (rm : List CalculationResult) (m : String) : List CalculationResult :=
  rm.filter fun e => e.userId = m

section SortLemmas

theorem insertDesc_perm (x : CalculationResult) (l : List CalculationResult) :
    List.Perm (insertDesc x l) (x :: l) := by
  induction l with
  | nil => simp [insertDesc]
  | cons y ys ih =>
    by_cases h : x.amount ≤ y.amount
    · simpa [insertDesc, h] using ((ih.cons y).trans (List.Perm.swap x y ys))
    · simp [insertDesc, h]

theorem foldl_insertDesc_perm (l : List CalculationResult) :
    ∀ acc : List CalculationResult,
      List.Perm (l.foldl (fun acc x => insertDesc x acc) acc) (acc ++ l) := by
  induction l with
  | nil => intro acc; simp
  | cons z t ih =>
    intro acc
    refine ((ih (insertDesc z acc)).trans ?_)
    exact (((insertDesc_perm z acc).append_right t).trans List.perm_middle.symm)

theorem sortByAmountDesc_perm (l : List CalculationResult) :
    List.Perm (sortByAmountDesc l) l := by
  simpa [sortByAmountDesc] using foldl_insertDesc_perm l []

/-- The descending-by-amount ordering invariant of the sort accumulator. -/
def SortedDesc (l : List CalculationResult) : Prop :=
  l.Pairwise fun a b => b.amount ≤ a.amount

theorem sortedDesc_insertDesc {l : List CalculationResult} (x : CalculationResult)
    (h : SortedDesc l) : SortedDesc (insertDesc x l) := by
  induction l with
  | nil => simp [insertDesc, SortedDesc]
  | cons y ys ih =>
    rw [SortedDesc, List.pairwise_cons] at h
    obtain ⟨hy, hys⟩ := h
    by_cases hxy : x.amount ≤ y.amount
    · rw [insertDesc, if_pos hxy, SortedDesc, List.pairwise_cons]
      exact ⟨fun z hz => (List.mem_cons.mp ((insertDesc_perm x ys).mem_iff.mp hz)).elim
          (fun e => e ▸ hxy) (fun hm => hy z hm),
        ih hys⟩
    · rw [insertDesc, if_neg hxy, SortedDesc, List.pairwise_cons]
      push_neg at hxy
      exact ⟨fun z hz => (List.mem_cons.mp hz).elim
          (fun e => e ▸ hxy.le) (fun hm => (hy z hm).trans hxy.le),
        List.Pairwise.cons hy hys⟩

theorem insertDesc_of_forall_lt {l : List CalculationResult} {x : CalculationResult}
    (h : ∀ z ∈ l, z.amount < x.amount) : insertDesc x l = x :: l := by
  cases l with
  | nil => rfl
  | cons y ys =>
    rw [insertDesc, if_neg (not_le.mpr (h y (List.mem_cons_self y ys)))]

theorem filter_insertDesc (p : CalculationResult → Bool) {l : List CalculationResult}
    (x : CalculationResult) (h : SortedDesc l) :
    (insertDesc x l).filter p =
      if p x then insertDesc x (l.filter p) else l.filter p := by
  induction l with
  | nil => cases hpx : p x <;> simp [insertDesc, List.filter, hpx]
  | cons y ys ih =>
    rw [SortedDesc, List.pairwise_cons] at h
    obtain ⟨hy, hys⟩ := h
    by_cases hxy : x.amount ≤ y.amount
    · rw [insertDesc, if_pos hxy]
      cases hpy : p y with
      | true =>
        rw [List.filter_cons_of_pos hpy, List.filter_cons_of_pos hpy, ih hys]
        cases hpx : p x with
        | true =>
          rw [if_pos rfl, if_pos rfl, insertDesc, if_pos hxy]
        | false =>
          rw [if_neg (by simp), if_neg (by simp)]
      | false =>
        rw [List.filter_cons_of_neg (by simp [hpy]),
          List.filter_cons_of_neg (by simp [hpy]), ih hys]
    · rw [insertDesc, if_neg hxy]
      push_neg at hxy
      cases hpx : p x with
      | true =>
        rw [List.filter_cons_of_pos hpx, if_pos rfl]
        have hall : ∀ z ∈ (y :: ys).filter p, z.amount < x.amount := by
          intro z hz
          have hzmem := List.mem_of_mem_filter hz
          rcases List.mem_cons.mp hzmem with hzy | hzys
          · exact hzy ▸ hxy
          · exact lt_of_le_of_lt (hy z hzys) hxy
        rw [insertDesc_of_forall_lt hall]
      | false =>
        rw [List.filter_cons_of_neg (by simp [hpx]), if_neg (by simp)]

theorem filter_foldl_insertDesc (p : CalculationResult → Bool)
    (l : List CalculationResult) :
    ∀ acc : List CalculationResult, SortedDesc acc →
      (l.foldl (fun acc x => insertDesc x acc) acc).filter p =
        (l.filter p).foldl (fun acc x => insertDesc x acc) (acc.filter p) := by
  induction l with
  | nil => intro acc _; simp
  | cons z t ih =>
    intro acc hacc
    rw [List.foldl_cons, ih (insertDesc z acc) (sortedDesc_insertDesc z hacc),
      filter_insertDesc p z hacc]
    cases hpz : p z with
    | true => rw [if_pos rfl, List.filter_cons_of_pos hpz, List.foldl_cons]
    | false => rw [if_neg (by simp), List.filter_cons_of_neg (by simp [hpz])]

theorem filter_sortByAmountDesc (p : CalculationResult → Bool)
    (l : List CalculationResult) :
    (sortByAmountDesc l).filter p = sortByAmountDesc (l.filter p) := by
  simpa [sortByAmountDesc] using filter_foldl_insertDesc p l [] List.Pairwise.nil

end SortLemmas

section ResultMapLemmas

theorem filter_userId_addToResult (m : String) :
    ∀ (rm : List CalculationResult) (userId userName : String) (amount : ℚ)
      (role : Role) (source : Source) (breakdown : String),
      (addToResult rm userId userName amount role source breakdown).filter
          (fun e => e.userId = m) =
        if userId = m then
          addToResult (rm.filter fun e => e.userId = m) userId userName amount role
            source breakdown
        else rm.filter fun e => e.userId = m := by
  intro rm
  induction rm with
  | nil =>
    intro userId userName amount role source breakdown
    by_cases h : userId = m
    · simp [addToResult, h]
    · simp [addToResult, h]
  | cons e rest ih =>
    intro userId userName amount role source breakdown
    by_cases hkey : e.userId = userId ∧ e.source = source
    · rw [addToResult, if_pos hkey]
      by_cases hm : userId = m
      · have he : e.userId = m := hkey.1.trans hm
        rw [if_pos hm, List.filter_cons_of_pos (by simp [he]),
          List.filter_cons_of_pos (by simp [he]), addToResult, if_pos hkey]
      · have he : ¬ e.userId = m := fun h => hm (hkey.1.symm.trans h)
        rw [if_neg hm, List.filter_cons_of_neg (by simp [he]),
          List.filter_cons_of_neg (by simp [he])]
    · rw [addToResult, if_neg hkey]
      by_cases he : e.userId = m
      · by_cases hm : userId = m
        · rw [List.filter_cons_of_pos (by simp [he]), if_pos hm,
            List.filter_cons_of_pos (by simp [he]), addToResult, if_neg hkey, ih,
            if_pos hm]
        · rw [List.filter_cons_of_pos (by simp [he]), if_neg hm,
            List.filter_cons_of_pos (by simp [he]), ih, if_neg hm]
      · by_cases hm : userId = m
        · rw [List.filter_cons_of_neg (by simp [he]), if_pos hm,
            List.filter_cons_of_neg (by simp [he]), ih, if_pos hm]
        · rw [List.filter_cons_of_neg (by simp [he]), if_neg hm,
            List.filter_cons_of_neg (by simp [he]), ih, if_neg hm]

/-- Every entry of `addToResult rm u n a r s b` is an untouched entry of
`rm`, the freshly appended entry, or a merged entry (same identity fields as
one of `rm`, amount increased by `a`, breakdown extended by `b`). -/
theorem forall_mem_addToResult {P : CalculationResult → Prop} :
    ∀ (rm : List CalculationResult) (u n : String) (a : ℚ) (r : Role) (s : Source)
      (b : String),
      (∀ e ∈ rm, P e) →
      P ⟨u, n, a, r, s, b⟩ →
      (∀ e : CalculationResult, P e → e.userId = u → e.source = s →
        P ⟨e.userId, e.userName, e.amount + a, e.role, e.source,
            e.breakdown ++ "\n" ++ b⟩) →
      ∀ e ∈ addToResult rm u n a r s b, P e := by
  intro rm
  induction rm with
  | nil =>
    intro u n a r s b _ hnew _ e he
    have : e = ⟨u, n, a, r, s, b⟩ := by simpa [addToResult] using he
    exact this ▸ hnew
  | cons e0 rest ih =>
    intro u n a r s b hrm hnew hmerge e he
    by_cases hkey : e0.userId = u ∧ e0.source = s
    · rw [addToResult, if_pos hkey] at he
      rcases List.mem_cons.mp he with h | h
      · exact h ▸ hmerge e0 (hrm e0 (List.mem_cons_self e0 rest)) hkey.1 hkey.2
      · exact hrm e (List.mem_cons_of_mem e0 h)
    · rw [addToResult, if_neg hkey] at he
      rcases List.mem_cons.mp he with h | h
      · exact h ▸ hrm e0 (List.mem_cons_self e0 rest)
      · exact ih u n a r s b (fun x hx => hrm x (List.mem_cons_of_mem e0 hx)) hnew
          hmerge e h

/-- Entry-wise invariant of the upline walk: entries added along the walk
carry role `upper`, the walk's channel, and an amount of the form
`amount * (d / 100)` with `0 < d`; merges add such an amount and extend the
breakdown. -/
theorem forall_mem_upperWalk {P : CalculationResult → Prop}
    (allUsers : List User) (typ : Source) (amount : ℚ) (performerName : String)
    (hnew : ∀ (uid un : String) (d : ℚ) (bd : String), 0 < d →
      P ⟨uid, un, amount * (d / 100), Role.upper, typ, bd⟩)
    (hmerge : ∀ (e : CalculationResult) (d : ℚ) (bd : String), P e → 0 < d →
      e.source = typ →
      P ⟨e.userId, e.userName, e.amount + amount * (d / 100), e.role, e.source,
          e.breakdown ++ "\n" ++ bd⟩) :
    ∀ (fuel : ℕ) (r : ℚ) (pid : Option String) (rm : List CalculationResult),
      (∀ e ∈ rm, P e) →
      ∀ e ∈ upperWalk allUsers typ amount performerName fuel r pid rm, P e := by
  intro fuel
  induction fuel with
  | zero => intro r pid rm hrm e he; exact hrm e he
  | succ fuel ih =>
    intro r pid rm hrm e he
    cases pid with
    | none => exact hrm e he
    | some pid =>
      by_cases hemp : pid = ""
      · rw [upperWalk, if_pos hemp] at he
        exact hrm e he
      · rw [upperWalk, if_neg hemp] at he
        cases hfind : findUserById allUsers pid with
        | none =>
          rw [hfind, Option.elim_none] at he
          exact hrm e he
        | some parent =>
          rw [hfind, Option.elim_some] at he
          set d : ℚ :=
            (jsRound ((rateOf typ parent - r) * 10000) : ℚ) / 10000 with hd
          by_cases hpos : 0 < d
          · rw [if_pos hpos] at he
            refine ih (rateOf typ parent) parent.parentId _ ?_ e he
            intro x hx
            refine forall_mem_addToResult rm parent.id parent.name
              (amount * (d / 100)) Role.upper typ _ hrm (hnew _ _ d _ hpos) ?_ x hx
            intro y hy hyu hys
            exact hmerge y d _ hy hpos hys
          · rw [if_neg hpos] at he
            exact ih _ parent.parentId rm hrm e he

end ResultMapLemmas

section FrameLemmas

/-- The upline walk never touches the entries of a member it does not visit. -/
theorem filter_userId_upperWalk (m : String) (allUsers : List User) (typ : Source)
    (amount : ℚ) (performerName : String) :
    ∀ (fuel : ℕ) (r : ℚ) (pid : Option String) (rm : List CalculationResult),
      m ∉ visitedIds allUsers fuel pid →
      (upperWalk allUsers typ amount performerName fuel r pid rm).filter
          (fun e => e.userId = m) =
        rm.filter (fun e => e.userId = m) := by
  intro fuel
  induction fuel with
  | zero => intro r pid rm _; rfl
  | succ fuel ih =>
    intro r pid rm hnv
    cases pid with
    | none => rfl
    | some pid =>
      by_cases hemp : pid = ""
      · rw [upperWalk, if_pos hemp]
      · rw [visitedIds, if_neg hemp] at hnv
        rw [upperWalk, if_neg hemp]
        cases hfind : findUserById allUsers pid with
        | none => rw [Option.elim_none]
        | some parent =>
          rw [hfind, Option.elim_some] at hnv
          rw [Option.elim_some]
          have hm1 : ¬ parent.id = m := fun h => hnv (h ▸ List.mem_cons_self _ _)
          have hm2 : m ∉ visitedIds allUsers fuel parent.parentId :=
            fun h => hnv (List.mem_cons_of_mem _ h)
          by_cases hpos :
            0 < (jsRound ((rateOf typ parent - r) * 10000) : ℚ) / 10000
          · simp only [if_pos hpos]
            rw [ih _ parent.parentId _ hm2, filter_userId_addToResult m,
              if_neg hm1]
          · simp only [if_neg hpos]
            exact ih _ parent.parentId rm hm2

/-- The `m`-entries of the walk's output depend only on the `m`-entries of
its input accumulator. -/
theorem filter_userId_upperWalk_congr (m : String) (allUsers : List User) (typ : Source)
    (amount : ℚ) (performerName : String) :
    ∀ (fuel : ℕ) (r : ℚ) (pid : Option String) (rm₁ rm₂ : List CalculationResult),
      rm₁.filter (fun e => e.userId = m) = rm₂.filter (fun e => e.userId = m) →
      (upperWalk allUsers typ amount performerName fuel r pid rm₁).filter
          (fun e => e.userId = m) =
        (upperWalk allUsers typ amount performerName fuel r pid rm₂).filter
          (fun e => e.userId = m) := by
  intro fuel
  induction fuel with
  | zero => intro r pid rm₁ rm₂ h; exact h
  | succ fuel ih =>
    intro r pid rm₁ rm₂ h
    cases pid with
    | none => exact h
    | some pid =>
      by_cases hemp : pid = ""
      · rw [upperWalk, if_pos hemp, upperWalk, if_pos hemp]; exact h
      · rw [upperWalk, if_neg hemp, upperWalk, if_neg hemp]
        cases hfind : findUserById allUsers pid with
        | none => rw [Option.elim_none, Option.elim_none]; exact h
        | some parent =>
          rw [Option.elim_some, Option.elim_some]
          by_cases hpos :
            0 < (jsRound ((rateOf typ parent - r) * 10000) : ℚ) / 10000
          · simp only [if_pos hpos]
            refine ih _ parent.parentId _ _ ?_
            rw [filter_userId_addToResult m, filter_userId_addToResult m]
            by_cases hpm : parent.id = m
            · rw [if_pos hpm, if_pos hpm, h]
            · rw [if_neg hpm, if_neg hpm, h]
          · simp only [if_neg hpos]
            exact ih _ parent.parentId rm₁ rm₂ h

/-- One channel pass never touches the entries of a member other than the
performer and its visited upline. -/
theorem filter_userId_processChannel (m : String) (allUsers : List User)
    (performer : User) (am : CalculationAmounts) (typ : Source)
    (rm : List CalculationResult) (hm1 : ¬ performer.id = m)
    (hm2 : m ∉ visitedIds allUsers allUsers.length performer.parentId) :
    (processChannel allUsers performer am rm typ).filter (fun e => e.userId = m) =
      rm.filter (fun e => e.userId = m) := by
  rw [processChannel]
  by_cases hz : channelAmount performer am typ = 0
  · simp only [if_pos hz]
  · simp only [if_neg hz]
    rw [filter_userId_upperWalk m _ _ _ _ _ _ _ _ hm2,
      filter_userId_addToResult m, if_neg hm1]

theorem filter_userId_processChannel_congr (m : String) (allUsers : List User)
    (performer : User) (am : CalculationAmounts) (typ : Source)
    (rm₁ rm₂ : List CalculationResult)
    (h : rm₁.filter (fun e => e.userId = m) = rm₂.filter (fun e => e.userId = m)) :
    (processChannel allUsers performer am rm₁ typ).filter (fun e => e.userId = m) =
      (processChannel allUsers performer am rm₂ typ).filter (fun e => e.userId = m) := by
  rw [processChannel, processChannel]
  by_cases hz : channelAmount performer am typ = 0
  · simp only [if_pos hz]; exact h
  · simp only [if_neg hz]
    refine filter_userId_upperWalk_congr m _ _ _ _ _ _ _ _ _ ?_
    rw [filter_userId_addToResult m, filter_userId_addToResult m]
    by_cases hpm : performer.id = m
    · rw [if_pos hpm, if_pos hpm, h]
    · rw [if_neg hpm, if_neg hpm, h]

/-- A distribution pass for an input whose performer chain avoids `m` leaves
the `m`-entries unchanged. -/
theorem filter_userId_processInput (m : String) (allUsers : List User)
    (input : BatchInput) (h : m ∉ touchedIds allUsers input)
    (rm : List CalculationResult) :
    (processInput allUsers rm input).filter (fun e => e.userId = m) =
      rm.filter (fun e => e.userId = m) := by
  rw [processInput]
  by_cases hz :
    input.amounts.casino = 0 ∧ input.amounts.slot = 0 ∧ input.amounts.losing = 0
  · rw [if_pos hz]
  · rw [if_neg hz]
    cases hfind : findUserById allUsers input.performerId with
    | none => rw [Option.elim_none]
    | some performer =>
      rw [Option.elim_some]
      rw [touchedIds, hfind, Option.elim_some] at h
      have hm1 : ¬ performer.id = m := fun hh => h (hh ▸ List.mem_cons_self _ _)
      have hm2 : m ∉ visitedIds allUsers allUsers.length performer.parentId :=
        fun hh => h (List.mem_cons_of_mem _ hh)
      simp only [List.foldl_cons, List.foldl_nil]
      rw [filter_userId_processChannel m _ _ _ _ _ hm1 hm2,
        filter_userId_processChannel m _ _ _ _ _ hm1 hm2,
        filter_userId_processChannel m _ _ _ _ _ hm1 hm2]

/-- The `m`-entries of a distribution pass depend only on the input line and
the `m`-entries of the accumulator. -/
theorem filter_userId_processInput_congr (m : String) (allUsers : List User)
    (input : BatchInput) (rm₁ rm₂ : List CalculationResult)
    (h : rm₁.filter (fun e => e.userId = m) = rm₂.filter (fun e => e.userId = m)) :
    (processInput allUsers rm₁ input).filter (fun e => e.userId = m) =
      (processInput allUsers rm₂ input).filter (fun e => e.userId = m) := by
  rw [processInput, processInput]
  by_cases hz :
    input.amounts.casino = 0 ∧ input.amounts.slot = 0 ∧ input.amounts.losing = 0
  · rw [if_pos hz, if_pos hz]; exact h
  · rw [if_neg hz, if_neg hz]
    cases hfind : findUserById allUsers input.performerId with
    | none => rw [Option.elim_none, Option.elim_none]; exact h
    | some performer =>
      rw [Option.elim_some, Option.elim_some]
      simp only [List.foldl_cons, List.foldl_nil]
      exact filter_userId_processChannel_congr m _ _ _ _ _ _
        (filter_userId_processChannel_congr m _ _ _ _ _ _
          (filter_userId_processChannel_congr m _ _ _ _ _ _ h))

/-- The batch fold over inputs that all avoid `m` leaves the `m`-entries of
the accumulator unchanged. -/
theorem filter_userId_foldl_skip (m : String) (allUsers : List User) :
    ∀ (l : List BatchInput) (rm : List CalculationResult),
      (∀ z ∈ l, m ∉ touchedIds allUsers z) →
      ((l.foldl (processInput allUsers) rm).filter (fun e => e.userId = m)) =
        rm.filter (fun e => e.userId = m) := by
  intro l
  induction l with
  | nil => intro rm _; rfl
  | cons z t ih =>
    intro rm hall
    rw [List.foldl_cons,
      ih _ (fun x hx => hall x (List.mem_cons_of_mem z hx)),
      filter_userId_processInput m allUsers z (hall z (List.mem_cons_self z t)) rm]

/-- Main frame lemma for batch independence: two input lists that agree on
every input whose performer chain touches `m`, folded from accumulators that
agree on their `m`-entries, produce the same `m`-entries. -/
theorem filter_userId_foldl (m : String) (allUsers : List User) :
    ∀ (n : ℕ) (l₁ l₂ : List BatchInput) (rm₁ rm₂ : List CalculationResult),
      l₁.length + l₂.length ≤ n →
      l₁.filter (fun z => decide (m ∈ touchedIds allUsers z)) =
        l₂.filter (fun z => decide (m ∈ touchedIds allUsers z)) →
      rm₁.filter (fun e => e.userId = m) = rm₂.filter (fun e => e.userId = m) →
      ((l₁.foldl (processInput allUsers) rm₁).filter (fun e => e.userId = m)) =
        ((l₂.foldl (processInput allUsers) rm₂).filter (fun e => e.userId = m)) := by
  intro n
  induction n with
  | zero =>
    intro l₁ l₂ rm₁ rm₂ hn hl hrm
    have h1 : l₁ = [] := List.length_eq_zero.mp (Nat.le_zero.mp (le_trans (Nat.le_add_right _ _) hn))
    have h2 : l₂ = [] := List.length_eq_zero.mp (Nat.le_zero.mp (le_trans (Nat.le_add_left _ _) hn))
    subst h1; subst h2
    simpa using hrm
  | succ n ih =>
    intro l₁ l₂ rm₁ rm₂ hn hl hrm
    cases l₁ with
    | nil =>
      rw [List.foldl_nil]
      have hall : ∀ z ∈ l₂, m ∉ touchedIds allUsers z := by
        intro z hz hmem
        have hzf : z ∈ l₂.filter (fun z => decide (m ∈ touchedIds allUsers z)) :=
          List.mem_filter.mpr ⟨hz, by simpa using hmem⟩
        rw [← hl] at hzf
        simp at hzf
      rw [filter_userId_foldl_skip m allUsers l₂ rm₂ hall, hrm]
    | cons z t =>
      by_cases hz : m ∈ touchedIds allUsers z
      · have hzb : (decide (m ∈ touchedIds allUsers z)) = true := by simpa using hz
        simp only [List.filter_cons, hzb, reduceIte] at hl
        cases l₂ with
        | nil =>
          rw [List.filter_nil] at hl
          exact absurd hl (List.cons_ne_nil _ _)
        | cons w s =>
          by_cases hw : m ∈ touchedIds allUsers w
          · have hwb : (decide (m ∈ touchedIds allUsers w)) = true := by simpa using hw
            simp only [List.filter_cons, hwb, reduceIte] at hl
            obtain ⟨hzw, hts⟩ := List.cons.inj hl
            rw [List.foldl_cons, List.foldl_cons, ← hzw]
            refine ih t s _ _ ?_ hts
              (filter_userId_processInput_congr m allUsers z _ _ hrm)
            simp only [List.length_cons] at hn ⊢
            omega
          · have hwb : (decide (m ∈ touchedIds allUsers w)) = false := by
              simp [hw]
            simp only [List.filter_cons, hwb, reduceIte] at hl
            conv_rhs => rw [List.foldl_cons]
            refine ih (z :: t) s _ _ ?_
              (by simp only [List.filter_cons, hzb, reduceIte]; exact hl)
              (by rw [filter_userId_processInput m allUsers w hw rm₂]; exact hrm)
            simp only [List.length_cons] at hn ⊢
            omega
      · have hzb : (decide (m ∈ touchedIds allUsers z)) = false := by simp [hz]
        simp only [List.filter_cons, hzb, reduceIte] at hl
        rw [List.foldl_cons]
        refine ih t l₂ _ rm₂ ?_ hl
          (by rw [filter_userId_processInput m allUsers z hz rm₁]; exact hrm)
        simp only [List.length_cons] at hn ⊢
        omega

end FrameLemmas

section LookupLemmas

theorem findUserById_eq_none {allUsers : List User} {k : String}
    (h : ∀ u ∈ allUsers, u.id ≠ k) : findUserById allUsers k = none := by
  induction allUsers with
  | nil => rfl
  | cons u rest ih =>
    rw [findUserById, if_neg (h u (List.mem_cons_self u rest))]
    exact ih fun v hv => h v (List.mem_cons_of_mem u hv)

theorem findUserById_mem {allUsers : List User} {k : String} {u : User}
    (h : findUserById allUsers k = some u) : u ∈ allUsers ∧ u.id = k := by
  induction allUsers with
  | nil => simp [findUserById] at h
  | cons v rest ih =>
    rw [findUserById] at h
    by_cases hv : v.id = k
    · rw [if_pos hv] at h
      obtain rfl := Option.some.inj h
      exact ⟨List.mem_cons_self _ _, hv⟩
    · rw [if_neg hv] at h
      obtain ⟨hm, hk⟩ := ih h
      exact ⟨List.mem_cons_of_mem v hm, hk⟩

theorem findUserById_of_nodup {allUsers : List User} {u : User}
    (hnd : (allUsers.map User.id).Nodup) (hm : u ∈ allUsers) :
    findUserById allUsers u.id = some u := by
  induction allUsers with
  | nil => simp at hm
  | cons v rest ih =>
    rw [List.map_cons, List.nodup_cons] at hnd
    obtain ⟨hv, hrest⟩ := hnd
    rcases List.mem_cons.mp hm with rfl | hm2
    · rw [findUserById, if_pos rfl]
    · have hne : ¬ v.id = u.id := by
        intro he
        exact hv (he ▸ List.mem_map_of_mem User.id hm2)
      rw [findUserById, if_neg hne]
      exact ih hrest hm2

/-- Ids that share a value are the same member when member ids are unique. -/
theorem eq_of_nodup_id {allUsers : List User} {u v : User}
    (hnd : (allUsers.map User.id).Nodup) (hu : u ∈ allUsers) (hv : v ∈ allUsers)
    (h : u.id = v.id) : u = v := by
  have h1 := findUserById_of_nodup hnd hu
  have h2 := findUserById_of_nodup hnd hv
  rw [h] at h1
  exact Option.some.inj (h1.symm.trans h2)

theorem visitedIds_mono (allUsers : List User) :
    ∀ (fuel : ℕ) (pid : Option String),
      visitedIds allUsers fuel pid ⊆ visitedIds allUsers (fuel + 1) pid := by
  intro fuel
  induction fuel with
  | zero => intro pid a ha; simp [visitedIds] at ha
  | succ fuel ih =>
    intro pid a ha
    cases pid with
    | none => simp [visitedIds] at ha
    | some pid =>
      by_cases hemp : pid = ""
      · rw [visitedIds, if_pos hemp] at ha
        simp at ha
      · rw [visitedIds, if_neg hemp] at ha
        rw [visitedIds, if_neg hemp]
        cases hfind : findUserById allUsers pid with
        | none => rw [hfind, Option.elim_none] at ha; simp at ha
        | some parent =>
          rw [hfind, Option.elim_some] at ha
          rw [Option.elim_some]
          rcases List.mem_cons.mp ha with rfl | ha2
          · exact List.mem_cons_self _ _
          · exact List.mem_cons_of_mem _ (ih parent.parentId ha2)

end LookupLemmas

section NetLemmas

theorem findInputByPid_append (k : String) :
    ∀ l₁ l₂ : List BatchInput,
      findInputByPid (l₁ ++ l₂) k =
        (findInputByPid l₁ k).elim (findInputByPid l₂ k) some := by
  intro l₁ l₂
  induction l₁ with
  | nil => simp [findInputByPid]
  | cons i rest ih =>
    by_cases hik : i.performerId = k
    · rw [List.cons_append, findInputByPid, if_pos hik, findInputByPid, if_pos hik,
        Option.elim_some]
    · rw [List.cons_append, findInputByPid, if_neg hik, findInputByPid, if_neg hik, ih]

/-- Removing one input changes `inputMap` lookups only at that input's key. -/
theorem inputMapGet_remove (pre post : List BatchInput) (x : BatchInput)
    {k : String} (hk : k ≠ x.performerId) :
    inputMapGet (pre ++ x :: post) k = inputMapGet (pre ++ post) k := by
  rw [inputMapGet, inputMapGet, List.reverse_append, List.reverse_cons,
    List.reverse_append, List.append_assoc, findInputByPid_append,
    findInputByPid_append, findInputByPid_append]
  cases findInputByPid post.reverse k with
  | some i => rw [Option.elim_some, Option.elim_some]
  | none =>
    have hx : findInputByPid [x] k = none := by
      rw [findInputByPid, if_neg (fun h => hk h.symm), findInputByPid]
    rw [Option.elim_none, Option.elim_none, hx, Option.elim_none]

theorem childrenSum_remove_aux (pre post : List BatchInput) (x : BatchInput) :
    ∀ (cs : List User) (acc : CalculationAmounts),
      (∀ c ∈ cs, c.id ≠ x.performerId) →
      cs.foldl (fun acc child =>
          let ci := inputMapGet (pre ++ x :: post) child.id
          ⟨acc.casino + ci.casino, acc.slot + ci.slot, acc.losing + ci.losing⟩) acc =
        cs.foldl (fun acc child =>
          let ci := inputMapGet (pre ++ post) child.id
          ⟨acc.casino + ci.casino, acc.slot + ci.slot, acc.losing + ci.losing⟩) acc := by
  intro cs
  induction cs with
  | nil => intro acc _; rfl
  | cons c rest ih =>
    intro acc hc
    simp only [List.foldl_cons]
    rw [inputMapGet_remove pre post x (hc c (List.mem_cons_self c rest))]
    exact ih _ fun v hv => hc v (List.mem_cons_of_mem c hv)

/-- Removing one input changes a member's children sum only when one of its
children carries the removed input's performer id. -/
theorem childrenSum_remove (pre post : List BatchInput) (x : BatchInput)
    (allUsers : List User) (uid : String)
    (h : ∀ c ∈ allUsers, c.parentId = some uid → c.id ≠ x.performerId) :
    childrenSum (pre ++ x :: post) allUsers uid =
      childrenSum (pre ++ post) allUsers uid := by
  rw [childrenSum, childrenSum]
  refine childrenSum_remove_aux pre post x _ _ ?_
  intro c hcf
  have hmem := List.mem_of_mem_filter hcf
  have hpar : c.parentId = some uid := by
    have := List.of_mem_filter hcf
    simpa using this
  exact h c hmem hpar

/-- `netOf` is unchanged by removing an input when no child of the
performer carries the removed input's performer id. -/
theorem netOf_remove (pre post : List BatchInput) (x : BatchInput)
    (allUsers : List User) (i : BatchInput)
    (h : ∀ Q : User, findUserById allUsers i.performerId = some Q →
      ∀ c ∈ allUsers, c.parentId = some Q.id → c.id ≠ x.performerId) :
    netOf (pre ++ x :: post) allUsers i = netOf (pre ++ post) allUsers i := by
  rw [netOf, netOf]
  cases hfind : findUserById allUsers i.performerId with
  | none => rfl
  | some Q =>
    rw [Option.some_bind, Option.some_bind,
      childrenSum_remove pre post x allUsers Q.id (h Q hfind)]

theorem netOf_unknown (inputs : List BatchInput) (allUsers : List User)
    (x : BatchInput) (hx : ∀ u ∈ allUsers, u.id ≠ x.performerId) :
    netOf inputs allUsers x = none := by
  rw [netOf, findUserById_eq_none hx, Option.none_bind]

/-- A kept NET entry carries the id of the member found for its input. -/
theorem netOf_performerId {inputs : List BatchInput} {allUsers : List User}
    {i z : BatchInput} {Q : User}
    (hQ : findUserById allUsers i.performerId = some Q)
    (hz : netOf inputs allUsers i = some z) : z.performerId = Q.id := by
  rw [netOf, hQ, Option.some_bind] at hz
  by_cases hc : i.amounts.casino - (childrenSum inputs allUsers Q.id).casino ≠ 0 ∨
      i.amounts.slot - (childrenSum inputs allUsers Q.id).slot ≠ 0 ∨
      i.amounts.losing - (childrenSum inputs allUsers Q.id).losing ≠ 0
  · rw [if_pos hc] at hz
    obtain rfl := Option.some.inj hz
    rfl
  · rw [if_neg hc] at hz
    exact absurd hz (Option.some_ne_none z).symm

theorem netLoop_append (inputs : List BatchInput) (allUsers : List User) :
    ∀ l₁ l₂ : List BatchInput,
      netLoop inputs allUsers (l₁ ++ l₂) =
        netLoop inputs allUsers l₁ ++ netLoop inputs allUsers l₂ := by
  intro l₁ l₂
  induction l₁ with
  | nil => rfl
  | cons i rest ih =>
    rw [List.cons_append, netLoop, netLoop, ih]
    cases netOf inputs allUsers i with
    | none => rw [Option.elim_none, Option.elim_none]
    | some z => rw [Option.elim_some, Option.elim_some, List.cons_append]

theorem netLoop_congr (A B : List BatchInput) (allUsers : List User) :
    ∀ l : List BatchInput,
      (∀ i ∈ l, netOf A allUsers i = netOf B allUsers i) →
      netLoop A allUsers l = netLoop B allUsers l := by
  intro l
  induction l with
  | nil => intro _; rfl
  | cons i rest ih =>
    intro h
    rw [netLoop, netLoop, h i (List.mem_cons_self i rest),
      ih fun j hj => h j (List.mem_cons_of_mem i hj)]

/-- The filtered output of the NET loop decomposes input by input. -/
theorem filter_netLoop_cons (pT : BatchInput → Bool) (inputs : List BatchInput)
    (allUsers : List User) (i : BatchInput) (l : List BatchInput) :
    (netLoop inputs allUsers (i :: l)).filter pT =
      ((netOf inputs allUsers i).elim [] fun z => if pT z then [z] else []) ++
        (netLoop inputs allUsers l).filter pT := by
  rw [netLoop]
  cases netOf inputs allUsers i with
  | none => rw [Option.elim_none, Option.elim_none, List.nil_append]
  | some z =>
    rw [Option.elim_some, Option.elim_some, List.filter_cons]
    cases hpz : pT z with
    | true => simp [hpz]
    | false => simp [hpz]

theorem filter_netLoop_congr (pT : BatchInput → Bool) (A B : List BatchInput)
    (allUsers : List User) :
    ∀ l : List BatchInput,
      (∀ i ∈ l,
        ((netOf A allUsers i).elim [] fun z => if pT z then [z] else []) =
          ((netOf B allUsers i).elim [] fun z => if pT z then [z] else [])) →
      (netLoop A allUsers l).filter pT = (netLoop B allUsers l).filter pT := by
  intro l
  induction l with
  | nil => intro _; rfl
  | cons i rest ih =>
    intro h
    rw [filter_netLoop_cons, filter_netLoop_cons, h i (List.mem_cons_self i rest),
      ih fun j hj => h j (List.mem_cons_of_mem i hj)]

end NetLemmas

section BatchIndependenceCore

/-- Core of batch independence: removing the input `x` leaves the filtered
NET contributions of every member outside `x`'s lineage unchanged. -/
theorem filter_netInputs_remove (allUsers : List User) (pre post : List BatchInput)
    (x : BatchInput) (m : String)
    (hnd : (allUsers.map User.id).Nodup)
    (hne : ∀ u ∈ allUsers, u.id ≠ "")
    (hm : m ∉ lineageIds allUsers x.performerId) :
    (netInputs (pre ++ x :: post) allUsers).filter
        (fun z => decide (m ∈ touchedIds allUsers z)) =
      (netInputs (pre ++ post) allUsers).filter
        (fun z => decide (m ∈ touchedIds allUsers z)) := by
  set pT : BatchInput → Bool := fun z => decide (m ∈ touchedIds allUsers z) with hpT
  cases hfind : findUserById allUsers x.performerId with
  | none =>
    -- no member matches the removed performer: nothing changes at all
    have hx : ∀ u ∈ allUsers, u.id ≠ x.performerId := by
      intro u hu he
      have := findUserById_of_nodup hnd hu
      rw [he, hfind] at this
      exact Option.noConfusion this
    have hbase : ∀ i, netOf (pre ++ x :: post) allUsers i =
        netOf (pre ++ post) allUsers i := by
      intro i
      exact netOf_remove pre post x allUsers i fun Q _ c hc _ => hx c hc
    rw [netInputs, netInputs, netLoop_append, netLoop_append]
    have hxa : netLoop (pre ++ x :: post) allUsers (x :: post) =
        netLoop (pre ++ x :: post) allUsers post := by
      rw [netLoop, netOf_unknown _ _ _ hx, Option.elim_none]
    rw [hxa]
    rw [netLoop_congr (pre ++ x :: post) (pre ++ post) allUsers pre
        fun i _ => hbase i,
      netLoop_congr (pre ++ x :: post) (pre ++ post) allUsers post
        fun i _ => hbase i]
  | some M =>
    obtain ⟨hMmem, hMid⟩ := findUserById_mem hfind
    rw [lineageIds, hfind, Option.elim_some] at hm
    have hmM : m ≠ M.id := fun h => hm (h ▸ List.mem_cons_self _ _)
    have hmv : m ∉ visitedIds allUsers (allUsers.length + 1) M.parentId :=
      fun h => hm (List.mem_cons_of_mem _ h)
    have hmv0 : m ∉ visitedIds allUsers allUsers.length M.parentId :=
      fun h => hmv (visitedIds_mono allUsers allUsers.length M.parentId h)
    -- contribution of any input is unchanged once filtered
    have hcontrib : ∀ i : BatchInput,
        ((netOf (pre ++ x :: post) allUsers i).elim []
            fun z => if pT z then [z] else []) =
          ((netOf (pre ++ post) allUsers i).elim []
            fun z => if pT z then [z] else []) := by
      intro i
      cases hQ : findUserById allUsers i.performerId with
      | none =>
        rw [netOf, netOf, hQ, Option.none_bind, Option.none_bind]
      | some Q =>
        obtain ⟨hQmem, hQid⟩ := findUserById_mem hQ
        by_cases hqc : ∀ c ∈ allUsers, c.parentId = some Q.id →
            c.id ≠ x.performerId
        · rw [netOf_remove pre post x allUsers i fun R hR => by
            rw [hQ] at hR
            obtain rfl := Option.some.inj hR
            exact hqc]
        · push_neg at hqc
          obtain ⟨c, hcmem, hcpar, hcid⟩ := hqc
          have hcM : c = M := by
            refine eq_of_nodup_id hnd hcmem hMmem ?_
            rw [hcid, hMid]
          subst hcM
          -- M's parent is Q, so both contributions are filtered out
          have hQfind : findUserById allUsers Q.id = some Q :=
            findUserById_of_nodup hnd hQmem
          have hvQ : visitedIds allUsers (allUsers.length + 1) c.parentId =
              Q.id :: visitedIds allUsers allUsers.length Q.parentId := by
            rw [hcpar, visitedIds, if_neg (hne Q hQmem), hQfind, Option.elim_some]
          rw [hvQ] at hmv
          have hmQ : m ≠ Q.id := fun h => hmv (h ▸ List.mem_cons_self _ _)
          have hmQv : m ∉ visitedIds allUsers allUsers.length Q.parentId :=
            fun h => hmv (List.mem_cons_of_mem _ h)
          have hptz : ∀ z : BatchInput, z.performerId = Q.id → pT z = false := by
            intro z hzid
            rw [hpT]
            simp only [decide_eq_false_iff_not]
            rw [touchedIds, hzid, hQfind, Option.elim_some]
            intro hmem
            rcases List.mem_cons.mp hmem with h | h
            · exact hmQ h
            · exact hmQv h
          cases hA : netOf (pre ++ x :: post) allUsers i with
          | none =>
            cases hB : netOf (pre ++ post) allUsers i with
            | none => rfl
            | some zB =>
              rw [Option.elim_none, Option.elim_some,
                if_neg (by simp [hptz zB (netOf_performerId hQ hB)])]
          | some zA =>
            cases hB : netOf (pre ++ post) allUsers i with
            | none =>
              rw [Option.elim_some, Option.elim_none,
                if_neg (by simp [hptz zA (netOf_performerId hQ hA)])]
            | some zB =>
              rw [Option.elim_some, Option.elim_some,
                if_neg (by simp [hptz zA (netOf_performerId hQ hA)]),
                if_neg (by simp [hptz zB (netOf_performerId hQ hB)])]
    -- x's own contribution is filtered out
    have hxc : ((netOf (pre ++ x :: post) allUsers x).elim []
        fun z => if pT z then [z] else []) = [] := by
      have hptx : ∀ z : BatchInput, z.performerId = M.id → pT z = false := by
        intro z hzid
        rw [hpT]
        simp only [decide_eq_false_iff_not]
        rw [touchedIds, hzid, hMid, hfind, Option.elim_some]
        intro hmem
        rcases List.mem_cons.mp hmem with h | h
        · exact hmM h
        · exact hmv0 h
      cases hA : netOf (pre ++ x :: post) allUsers x with
      | none => rfl
      | some zA =>
        rw [Option.elim_some, if_neg (by simp [hptx zA (netOf_performerId
          (by rw [hfind]) hA)])]
    rw [netInputs, netInputs, netLoop_append, netLoop_append, List.filter_append,
      List.filter_append, filter_netLoop_cons, hxc, List.nil_append,
      filter_netLoop_congr pT _ _ allUsers pre fun i _ => hcontrib i,
      filter_netLoop_congr pT _ _ allUsers post fun i _ => hcontrib i]

end BatchIndependenceCore

section NetSpecLemmas

theorem childrenSum_foldl_eq (inputs : List BatchInput) :
    ∀ (cs : List User) (acc : CalculationAmounts),
      cs.foldl (fun acc child =>
          let ci := inputMapGet inputs child.id
          ⟨acc.casino + ci.casino, acc.slot + ci.slot, acc.losing + ci.losing⟩) acc =
        ⟨acc.casino + (cs.map fun c => (inputMapGet inputs c.id).casino).sum,
          acc.slot + (cs.map fun c => (inputMapGet inputs c.id).slot).sum,
          acc.losing + (cs.map fun c => (inputMapGet inputs c.id).losing).sum⟩ := by
  intro cs
  induction cs with
  | nil => intro acc; simp
  | cons c rest ih =>
    intro acc
    simp only [List.foldl_cons, List.map_cons, List.sum_cons, ih]
    congr 1 <;> ring

theorem netOf_eq_netSpecOf (inputs : List BatchInput) (allUsers : List User)
    (i : BatchInput) : netOf inputs allUsers i = netSpecOf inputs allUsers i := by
  rw [netOf, netSpecOf]
  cases findUserById allUsers i.performerId with
  | none => rfl
  | some user =>
    rw [Option.some_bind, Option.some_bind, childrenSum, childrenSum_foldl_eq]
    simp only [zero_add]
    split_ifs with h1 h2 h3 <;> first | rfl | tauto

end NetSpecLemmas

section TwoLevelLemmas

/-- When no present entry carries the key `(uid, src)`, `addToResult`
appends the new entry at the end (the `Map.set` of a fresh key). -/
theorem addToResult_append (rm : List CalculationResult) (uid un : String) (a : ℚ)
    (ro : Role) (src : Source) (b : String)
    (h : ∀ e ∈ rm, ¬(e.userId = uid ∧ e.source = src)) :
    addToResult rm uid un a ro src b = rm ++ [⟨uid, un, a, ro, src, b⟩] := by
  induction rm with
  | nil => rfl
  | cons e rest ih =>
      rw [addToResult, if_neg (h e (by simp)), ih fun x hx => h x (by simp [hx])]
      rfl

/-- A channel whose distributed base is zero is skipped
(`if (amount === 0) return`). -/
theorem processChannel_skip (allUsers : List User) (performer : User)
    (am : CalculationAmounts) (rm : List CalculationResult) (typ : Source)
    (h : channelAmount performer am typ = 0) :
    processChannel allUsers performer am rm typ = rm := by
  simp [processChannel, h]

/-- A channel with nonzero base unfolds to the self entry followed by the
upline walk. -/
theorem processChannel_unfold (allUsers : List User) (performer : User)
    (am : CalculationAmounts) (rm : List CalculationResult) (typ : Source)
    (h : channelAmount performer am typ ≠ 0) :
    processChannel allUsers performer am rm typ =
      upperWalk allUsers typ (channelAmount performer am typ) performer.name
        allUsers.length (rateOf typ performer) performer.parentId
        (addToResult rm performer.id performer.name
          (channelAmount performer am typ * (rateOf typ performer / 100)) Role.self typ
          (selfBreakdownStr performer typ am.losing
            (am.casino * (performer.casinoRate / 100))
            (am.slot * (performer.slotRate / 100))
            (channelAmount performer am typ) (rateOf typ performer)
            (channelAmount performer am typ * (rateOf typ performer / 100)))) := by
  simp only [processChannel, if_neg h]

/-- One step of the upline walk when the parent is a root (no further
parent) and the rounded rate differential is positive: exactly one upper
entry is recorded and the walk stops. -/
theorem upperWalk_step_pos (allUsers : List User) (typ : Source) (a c : ℚ)
    (nm pid : String) (rm : List CalculationResult) (fuel : ℕ) (parent : User)
    (hpid : ¬pid = "") (hf : findUserById allUsers pid = some parent)
    (hnone : parent.parentId = none)
    (hd : 0 < jsRound ((rateOf typ parent - c) * 10000)) :
    upperWalk allUsers typ a nm (fuel + 2) c (some pid) rm =
      addToResult rm parent.id parent.name
        (a * ((jsRound ((rateOf typ parent - c) * 10000) : ℚ) / 10000 / 100))
        Role.upper typ
        (upperBreakdownStr parent nm typ a (rateOf typ parent) c
          ((jsRound ((rateOf typ parent - c) * 10000) : ℚ) / 10000)
          (a * ((jsRound ((rateOf typ parent - c) * 10000) : ℚ) / 10000 / 100))) := by
  have hd2 : (0 : ℚ) < (jsRound ((rateOf typ parent - c) * 10000) : ℚ) / 10000 := by
    apply div_pos _ (by norm_num)
    exact_mod_cast hd
  rw [upperWalk, if_neg hpid, hf]
  simp only [Option.elim_some, if_pos hd2]
  rw [hnone]
  rfl

/-- One step of the upline walk when the parent is a root and the rounded
rate differential is not positive: nothing is recorded and the walk stops. -/
theorem upperWalk_step_neg (allUsers : List User) (typ : Source) (a c : ℚ)
    (nm pid : String) (rm : List CalculationResult) (fuel : ℕ) (parent : User)
    (hpid : ¬pid = "") (hf : findUserById allUsers pid = some parent)
    (hnone : parent.parentId = none)
    (hd : ¬0 < jsRound ((rateOf typ parent - c) * 10000)) :
    upperWalk allUsers typ a nm (fuel + 2) c (some pid) rm = rm := by
  have hd2 : ¬(0 : ℚ) < (jsRound ((rateOf typ parent - c) * 10000) : ℚ) / 10000 := by
    rw [not_lt] at hd ⊢
    apply div_nonpos_of_nonpos_of_nonneg _ (by norm_num)
    exact_mod_cast hd
  rw [upperWalk, if_neg hpid, hf]
  simp only [Option.elim_some, if_neg hd2]
  rw [hnone]
  rfl


/-- The NET pass of the canonical two-level batch (root `A`, leaf `B`,
one input for `B`): `B` has no children, so its input survives unchanged. -/
theorem twoLevel_netInputs (R r V : ℚ) (hV : V ≠ 0) :
    netInputs [⟨"B", ⟨V, 0, 0⟩⟩]
        [⟨"A", "A", none, R, 0, 0⟩, ⟨"B", "B", some "A", r, 0, 0⟩] =
      [⟨"B", ⟨V, 0, 0⟩⟩] := by
  simp [netInputs, netLoop, netOf, childrenSum, findUserById, inputMapGet,
    findInputByPid, hV]

theorem sortByAmountDesc_singleton (x : CalculationResult) :
    sortByAmountDesc [x] = [x] := rfl

/-- Every self-entry breakdown string is non-empty (it opens with a
bracketed member name). -/
theorem selfBreakdownStr_ne_empty (u : User) (typ : Source) (a b c d e f : ℚ) :
    selfBreakdownStr u typ a b c d e f ≠ "" := by
  intro h
  have hl := congrArg String.length h
  have h1 : "[".length = 1 := rfl
  cases typ <;>
    simp [selfBreakdownStr, String.length_append, h1] at hl

/-- Distribution of the two-level batch, leaf rate `r` nonzero, positive
rounded differential: the leaf self casino entry, the root upper casino
entry, and the zero-amount leaf self losing entry (the adjusted losing base
`-(V*(r/100))` is nonzero, so the channel runs at a zero losing rate). -/
theorem twoLevel_fold_pos (R r V : ℚ) (hV : V ≠ 0) (hr : r ≠ 0)
    (hd2 : 0 < jsRound ((R - r) * 10000)) :
    ([⟨"B", ⟨V, 0, 0⟩⟩] : List BatchInput).foldl
      (processInput [⟨"A", "A", none, R, 0, 0⟩, ⟨"B", "B", some "A", r, 0, 0⟩]) [] =
      [⟨"B", "B", V * (r / 100), Role.self, Source.casino,
          selfBreakdownStr ⟨"B", "B", some "A", r, 0, 0⟩ Source.casino 0
            (V * (r / 100)) 0 V r (V * (r / 100))⟩,
        ⟨"A", "A", V * ((jsRound ((R - r) * 10000) : ℚ) / 10000 / 100), Role.upper,
          Source.casino,
          upperBreakdownStr ⟨"A", "A", none, R, 0, 0⟩ "B" Source.casino V R r
            ((jsRound ((R - r) * 10000) : ℚ) / 10000)
            (V * ((jsRound ((R - r) * 10000) : ℚ) / 10000 / 100))⟩,
        ⟨"B", "B", 0, Role.self, Source.losing,
          selfBreakdownStr ⟨"B", "B", some "A", r, 0, 0⟩ Source.losing 0
            (V * (r / 100)) 0 (-(V * (r / 100))) 0 0⟩] := by
  have hfB : findUserById
      [⟨"A", "A", none, R, 0, 0⟩, ⟨"B", "B", some "A", r, 0, 0⟩] "B" =
      some ⟨"B", "B", some "A", r, 0, 0⟩ := by
    simp [findUserById]
  have hfA : findUserById
      [⟨"A", "A", none, R, 0, 0⟩, ⟨"B", "B", some "A", r, 0, 0⟩] "A" =
      some ⟨"A", "A", none, R, 0, 0⟩ := by
    simp [findUserById]
  rw [List.foldl_cons, List.foldl_nil]
  simp only [processInput, hfB, Option.elim_some, List.foldl_cons, List.foldl_nil]
  rw [if_neg (by simp [hV])]
  rw [processChannel_unfold
    [⟨"A", "A", none, R, 0, 0⟩, ⟨"B", "B", some "A", r, 0, 0⟩]
    ⟨"B", "B", some "A", r, 0, 0⟩ ⟨V, 0, 0⟩ [] Source.casino
    (by simp [channelAmount, hV])]
  simp only [channelAmount, rateOf, List.length_cons, List.length_nil, zero_mul,
    add_zero, zero_sub, zero_div, mul_zero]
  simp only [addToResult]
  rw [upperWalk_step_pos
    [⟨"A", "A", none, R, 0, 0⟩, ⟨"B", "B", some "A", r, 0, 0⟩]
    Source.casino V r "B" "A" _ 0 ⟨"A", "A", none, R, 0, 0⟩
    (by simp) hfA rfl (by exact hd2)]
  rw [addToResult_append _ _ _ _ _ _ _ (by simp)]
  simp only [rateOf, List.cons_append, List.nil_append]
  rw [processChannel_skip _ _ _ _ Source.slot (by simp [channelAmount])]
  rw [processChannel_unfold
    [⟨"A", "A", none, R, 0, 0⟩, ⟨"B", "B", some "A", r, 0, 0⟩]
    ⟨"B", "B", some "A", r, 0, 0⟩ ⟨V, 0, 0⟩ _ Source.losing
    (by simp [channelAmount, hV, hr])]
  simp only [channelAmount, rateOf, List.length_cons, List.length_nil, zero_mul,
    add_zero, zero_sub, zero_div, mul_zero]
  rw [addToResult_append _ _ _ _ _ _ _ (by simp)]
  rw [upperWalk_step_neg
    [⟨"A", "A", none, R, 0, 0⟩, ⟨"B", "B", some "A", r, 0, 0⟩]
    Source.losing _ 0 "B" "A" _ 0 ⟨"A", "A", none, R, 0, 0⟩
    (by simp) hfA rfl (by norm_num [rateOf, jsRound])]
  simp only [List.cons_append, List.nil_append]

/-- Distribution of the two-level batch with leaf rate `0`, positive rounded
differential: a zero-amount leaf self casino entry and the root upper casino
entry; the losing channel is skipped (no expenses at rate 0). -/
theorem twoLevel_fold_pos_zero (R V : ℚ) (hV : V ≠ 0)
    (hd2 : 0 < jsRound (R * 10000)) :
    ([⟨"B", ⟨V, 0, 0⟩⟩] : List BatchInput).foldl
      (processInput [⟨"A", "A", none, R, 0, 0⟩, ⟨"B", "B", some "A", 0, 0, 0⟩]) [] =
      [⟨"B", "B", 0, Role.self, Source.casino,
          selfBreakdownStr ⟨"B", "B", some "A", 0, 0, 0⟩ Source.casino 0 0 0 V 0 0⟩,
        ⟨"A", "A", V * ((jsRound (R * 10000) : ℚ) / 10000 / 100), Role.upper,
          Source.casino,
          upperBreakdownStr ⟨"A", "A", none, R, 0, 0⟩ "B" Source.casino V R 0
            ((jsRound (R * 10000) : ℚ) / 10000)
            (V * ((jsRound (R * 10000) : ℚ) / 10000 / 100))⟩] := by
  have hfB : findUserById
      [⟨"A", "A", none, R, 0, 0⟩, ⟨"B", "B", some "A", 0, 0, 0⟩] "B" =
      some ⟨"B", "B", some "A", 0, 0, 0⟩ := by
    simp [findUserById]
  have hfA : findUserById
      [⟨"A", "A", none, R, 0, 0⟩, ⟨"B", "B", some "A", 0, 0, 0⟩] "A" =
      some ⟨"A", "A", none, R, 0, 0⟩ := by
    simp [findUserById]
  rw [List.foldl_cons, List.foldl_nil]
  simp only [processInput, hfB, Option.elim_some, List.foldl_cons, List.foldl_nil]
  rw [if_neg (by simp [hV])]
  rw [processChannel_unfold
    [⟨"A", "A", none, R, 0, 0⟩, ⟨"B", "B", some "A", 0, 0, 0⟩]
    ⟨"B", "B", some "A", 0, 0, 0⟩ ⟨V, 0, 0⟩ [] Source.casino
    (by simp [channelAmount, hV])]
  simp only [channelAmount, rateOf, List.length_cons, List.length_nil, zero_mul,
    add_zero, zero_sub, zero_div, mul_zero]
  simp only [addToResult]
  rw [upperWalk_step_pos
    [⟨"A", "A", none, R, 0, 0⟩, ⟨"B", "B", some "A", 0, 0, 0⟩]
    Source.casino V 0 "B" "A" _ 0 ⟨"A", "A", none, R, 0, 0⟩
    (by simp) hfA rfl (by simpa [rateOf] using hd2)]
  rw [addToResult_append _ _ _ _ _ _ _ (by simp)]
  simp only [rateOf, sub_zero, List.cons_append, List.nil_append]
  rw [processChannel_skip _ _ _ _ Source.slot (by simp [channelAmount])]
  rw [processChannel_skip _ _ _ _ Source.losing (by simp [channelAmount])]

/-- Distribution of the two-level batch, leaf rate `r` nonzero,
non-positive rounded differential: no upper entry is produced at all. -/
theorem twoLevel_fold_nonpos (R r V : ℚ) (hV : V ≠ 0) (hr : r ≠ 0)
    (hd2 : jsRound ((R - r) * 10000) ≤ 0) :
    ([⟨"B", ⟨V, 0, 0⟩⟩] : List BatchInput).foldl
      (processInput [⟨"A", "A", none, R, 0, 0⟩, ⟨"B", "B", some "A", r, 0, 0⟩]) [] =
      [⟨"B", "B", V * (r / 100), Role.self, Source.casino,
          selfBreakdownStr ⟨"B", "B", some "A", r, 0, 0⟩ Source.casino 0
            (V * (r / 100)) 0 V r (V * (r / 100))⟩,
        ⟨"B", "B", 0, Role.self, Source.losing,
          selfBreakdownStr ⟨"B", "B", some "A", r, 0, 0⟩ Source.losing 0
            (V * (r / 100)) 0 (-(V * (r / 100))) 0 0⟩] := by
  have hfB : findUserById
      [⟨"A", "A", none, R, 0, 0⟩, ⟨"B", "B", some "A", r, 0, 0⟩] "B" =
      some ⟨"B", "B", some "A", r, 0, 0⟩ := by
    simp [findUserById]
  have hfA : findUserById
      [⟨"A", "A", none, R, 0, 0⟩, ⟨"B", "B", some "A", r, 0, 0⟩] "A" =
      some ⟨"A", "A", none, R, 0, 0⟩ := by
    simp [findUserById]
  rw [List.foldl_cons, List.foldl_nil]
  simp only [processInput, hfB, Option.elim_some, List.foldl_cons, List.foldl_nil]
  rw [if_neg (by simp [hV])]
  rw [processChannel_unfold
    [⟨"A", "A", none, R, 0, 0⟩, ⟨"B", "B", some "A", r, 0, 0⟩]
    ⟨"B", "B", some "A", r, 0, 0⟩ ⟨V, 0, 0⟩ [] Source.casino
    (by simp [channelAmount, hV])]
  simp only [channelAmount, rateOf, List.length_cons, List.length_nil, zero_mul,
    add_zero, zero_sub, zero_div, mul_zero]
  simp only [addToResult]
  rw [upperWalk_step_neg
    [⟨"A", "A", none, R, 0, 0⟩, ⟨"B", "B", some "A", r, 0, 0⟩]
    Source.casino V r "B" "A" _ 0 ⟨"A", "A", none, R, 0, 0⟩
    (by simp) hfA rfl (by exact not_lt.mpr hd2)]
  rw [processChannel_skip _ _ _ _ Source.slot (by simp [channelAmount])]
  rw [processChannel_unfold
    [⟨"A", "A", none, R, 0, 0⟩, ⟨"B", "B", some "A", r, 0, 0⟩]
    ⟨"B", "B", some "A", r, 0, 0⟩ ⟨V, 0, 0⟩ _ Source.losing
    (by simp [channelAmount, hV, hr])]
  simp only [channelAmount, rateOf, List.length_cons, List.length_nil, zero_mul,
    add_zero, zero_sub, zero_div, mul_zero]
  rw [addToResult_append _ _ _ _ _ _ _ (by simp)]
  rw [upperWalk_step_neg
    [⟨"A", "A", none, R, 0, 0⟩, ⟨"B", "B", some "A", r, 0, 0⟩]
    Source.losing _ 0 "B" "A" _ 0 ⟨"A", "A", none, R, 0, 0⟩
    (by simp) hfA rfl (by norm_num [rateOf, jsRound])]
  simp only [List.cons_append, List.nil_append]

/-- Distribution of the two-level batch with leaf rate `0` and non-positive
rounded differential: only the zero-amount leaf self casino entry. -/
theorem twoLevel_fold_nonpos_zero (R V : ℚ) (hV : V ≠ 0)
    (hd2 : jsRound (R * 10000) ≤ 0) :
    ([⟨"B", ⟨V, 0, 0⟩⟩] : List BatchInput).foldl
      (processInput [⟨"A", "A", none, R, 0, 0⟩, ⟨"B", "B", some "A", 0, 0, 0⟩]) [] =
      [⟨"B", "B", 0, Role.self, Source.casino,
          selfBreakdownStr ⟨"B", "B", some "A", 0, 0, 0⟩ Source.casino 0 0 0 V 0 0⟩] := by
  have hfB : findUserById
      [⟨"A", "A", none, R, 0, 0⟩, ⟨"B", "B", some "A", 0, 0, 0⟩] "B" =
      some ⟨"B", "B", some "A", 0, 0, 0⟩ := by
    simp [findUserById]
  have hfA : findUserById
      [⟨"A", "A", none, R, 0, 0⟩, ⟨"B", "B", some "A", 0, 0, 0⟩] "A" =
      some ⟨"A", "A", none, R, 0, 0⟩ := by
    simp [findUserById]
  rw [List.foldl_cons, List.foldl_nil]
  simp only [processInput, hfB, Option.elim_some, List.foldl_cons, List.foldl_nil]
  rw [if_neg (by simp [hV])]
  rw [processChannel_unfold
    [⟨"A", "A", none, R, 0, 0⟩, ⟨"B", "B", some "A", 0, 0, 0⟩]
    ⟨"B", "B", some "A", 0, 0, 0⟩ ⟨V, 0, 0⟩ [] Source.casino
    (by simp [channelAmount, hV])]
  simp only [channelAmount, rateOf, List.length_cons, List.length_nil, zero_mul,
    add_zero, zero_sub, zero_div, mul_zero]
  simp only [addToResult]
  rw [upperWalk_step_neg
    [⟨"A", "A", none, R, 0, 0⟩, ⟨"B", "B", some "A", 0, 0, 0⟩]
    Source.casino V 0 "B" "A" _ 0 ⟨"A", "A", none, R, 0, 0⟩
    (by simp) hfA rfl (by simp [rateOf, not_lt]; exact hd2)]
  rw [processChannel_skip _ _ _ _ Source.slot (by simp [channelAmount])]
  rw [processChannel_skip _ _ _ _ Source.losing (by simp [channelAmount])]


end TwoLevelLemmas

section KeyLemmas

/-- The key list (`userId-source` map keys) of `addToResult`: unchanged on
a merge, extended by the fresh key on an append. -/
theorem keys_addToResult :
    ∀ (rm : List CalculationResult) (uid un : String) (a : ℚ) (ro : Role)
      (src : Source) (b : String),
      (addToResult rm uid un a ro src b).map (fun e => (e.userId, e.source)) =
        if (uid, src) ∈ rm.map (fun e => (e.userId, e.source)) then
          rm.map (fun e => (e.userId, e.source))
        else rm.map (fun e => (e.userId, e.source)) ++ [(uid, src)] := by
  intro rm
  induction rm with
  | nil => intro uid un a ro src b; simp [addToResult]
  | cons e rest ih =>
    intro uid un a ro src b
    by_cases hkey : e.userId = uid ∧ e.source = src
    · rw [addToResult, if_pos hkey]
      obtain ⟨h1, h2⟩ := hkey
      simp [List.map_cons, h1, h2]
    · rw [addToResult, if_neg hkey]
      rw [List.map_cons, List.map_cons, ih]
      by_cases hm : ((uid, src) : String × Source) ∈
          rest.map (fun e => (e.userId, e.source))
      · rw [if_pos hm, if_pos (List.mem_cons_of_mem _ hm)]
      · rw [if_neg hm, if_neg ?_, List.cons_append]
        intro hmem
        rcases List.mem_cons.mp hmem with hh | hh
        · simp only [Prod.mk.injEq] at hh
          exact hkey ⟨hh.1.symm, hh.2.symm⟩
        · exact hm hh

/-- `addToResult` preserves distinctness of the `(userId, source)` keys. -/
theorem nodupKeys_addToResult (rm : List CalculationResult) (uid un : String)
    (a : ℚ) (ro : Role) (src : Source) (b : String)
    (hnd : (rm.map (fun e => (e.userId, e.source))).Nodup) :
    ((addToResult rm uid un a ro src b).map (fun e => (e.userId, e.source))).Nodup := by
  rw [keys_addToResult]
  by_cases h : ((uid, src) : String × Source) ∈ rm.map (fun e => (e.userId, e.source))
  · rw [if_pos h]; exact hnd
  · rw [if_neg h]
    refine List.Nodup.append hnd (List.nodup_singleton _) ?_
    intro x hx hx2
    simp only [List.mem_singleton] at hx2
    exact h (hx2 ▸ hx)

/-- The upline walk preserves key distinctness. -/
theorem nodupKeys_upperWalk (allUsers : List User) (typ : Source) (amount : ℚ)
    (nm : String) :
    ∀ (fuel : ℕ) (r : ℚ) (pid : Option String) (rm : List CalculationResult),
      (rm.map (fun e => (e.userId, e.source))).Nodup →
      ((upperWalk allUsers typ amount nm fuel r pid rm).map
        (fun e => (e.userId, e.source))).Nodup := by
  intro fuel
  induction fuel with
  | zero => intro r pid rm h; exact h
  | succ fuel ih =>
    intro r pid rm h
    cases pid with
    | none => exact h
    | some pid =>
      by_cases hemp : pid = ""
      · rw [upperWalk, if_pos hemp]; exact h
      · rw [upperWalk, if_neg hemp]
        cases hfind : findUserById allUsers pid with
        | none => rw [Option.elim_none]; exact h
        | some parent =>
          rw [Option.elim_some]
          by_cases hpos :
            0 < (jsRound ((rateOf typ parent - r) * 10000) : ℚ) / 10000
          · rw [if_pos hpos]
            exact ih _ _ _ (nodupKeys_addToResult _ _ _ _ _ _ _ h)
          · rw [if_neg hpos]
            exact ih _ _ _ h

theorem nodupKeys_processChannel (allUsers : List User) (performer : User)
    (am : CalculationAmounts) (rm : List CalculationResult) (typ : Source)
    (h : (rm.map (fun e => (e.userId, e.source))).Nodup) :
    ((processChannel allUsers performer am rm typ).map
      (fun e => (e.userId, e.source))).Nodup := by
  by_cases hz : channelAmount performer am typ = 0
  · rw [processChannel_skip _ _ _ _ _ hz]; exact h
  · rw [processChannel_unfold _ _ _ _ _ hz]
    exact nodupKeys_upperWalk _ _ _ _ _ _ _ _
      (nodupKeys_addToResult _ _ _ _ _ _ _ h)

theorem nodupKeys_processInput (allUsers : List User) (rm : List CalculationResult)
    (input : BatchInput)
    (h : (rm.map (fun e => (e.userId, e.source))).Nodup) :
    ((processInput allUsers rm input).map (fun e => (e.userId, e.source))).Nodup := by
  rw [processInput]
  by_cases hz :
    input.amounts.casino = 0 ∧ input.amounts.slot = 0 ∧ input.amounts.losing = 0
  · rw [if_pos hz]; exact h
  · rw [if_neg hz]
    cases hfind : findUserById allUsers input.performerId with
    | none => rw [Option.elim_none]; exact h
    | some performer =>
      rw [Option.elim_some]
      simp only [List.foldl_cons, List.foldl_nil]
      exact nodupKeys_processChannel _ _ _ _ _
        (nodupKeys_processChannel _ _ _ _ _
          (nodupKeys_processChannel _ _ _ _ _ h))

theorem nodupKeys_foldl (allUsers : List User) :
    ∀ (l : List BatchInput) (rm : List CalculationResult),
      (rm.map (fun e => (e.userId, e.source))).Nodup →
      ((l.foldl (processInput allUsers) rm).map
        (fun e => (e.userId, e.source))).Nodup := by
  intro l
  induction l with
  | nil => intro rm h; exact h
  | cons z t ih =>
    intro rm h
    rw [List.foldl_cons]
    exact ih _ (nodupKeys_processInput _ _ _ h)

end KeyLemmas

section SourceLemmas

/-- Every entry of one channel pass is either carried over or belongs to
the processed channel of a nonzero distributed base. -/
theorem mem_processChannel (allUsers : List User) (performer : User)
    (am : CalculationAmounts) (rm : List CalculationResult) (typ : Source) :
    ∀ e ∈ processChannel allUsers performer am rm typ,
      e ∈ rm ∨ (e.source = typ ∧ channelAmount performer am typ ≠ 0) := by
  by_cases hz : channelAmount performer am typ = 0
  · rw [processChannel_skip _ _ _ _ _ hz]
    exact fun e he => Or.inl he
  · rw [processChannel_unfold _ _ _ _ _ hz]
    intro e he
    have hP : ∀ x ∈ upperWalk allUsers typ (channelAmount performer am typ)
        performer.name allUsers.length (rateOf typ performer) performer.parentId
        (addToResult rm performer.id performer.name
          (channelAmount performer am typ * (rateOf typ performer / 100)) Role.self typ
          (selfBreakdownStr performer typ am.losing
            (am.casino * (performer.casinoRate / 100))
            (am.slot * (performer.slotRate / 100))
            (channelAmount performer am typ) (rateOf typ performer)
            (channelAmount performer am typ * (rateOf typ performer / 100)))),
        x ∈ rm ∨ x.source = typ := by
      refine forall_mem_upperWalk allUsers typ _ performer.name ?_ ?_ _ _ _ _ ?_
      · intro uid un d bd _
        exact Or.inr rfl
      · intro x d bd _ _ hs
        exact Or.inr hs
      · intro x hx
        refine @forall_mem_addToResult (fun y => y ∈ rm ∨ y.source = typ) rm
          performer.id performer.name _ Role.self typ _ ?_ ?_ ?_ x hx
        · exact fun y hy => Or.inl hy
        · exact Or.inr rfl
        · intro y _ _ hys
          exact Or.inr hys
    rcases hP e he with h | h
    · exact Or.inl h
    · exact Or.inr ⟨h, hz⟩

/-- Every entry of one distribution pass is carried over or stems from a
channel of that input whose distributed base is nonzero. -/
theorem mem_processInput (allUsers : List User) (rm : List CalculationResult)
    (input : BatchInput) :
    ∀ e ∈ processInput allUsers rm input,
      e ∈ rm ∨ ∃ performer, findUserById allUsers input.performerId = some performer ∧
        channelAmount performer input.amounts e.source ≠ 0 := by
  rw [processInput]
  by_cases hz :
    input.amounts.casino = 0 ∧ input.amounts.slot = 0 ∧ input.amounts.losing = 0
  · rw [if_pos hz]
    exact fun e he => Or.inl he
  · rw [if_neg hz]
    cases hfind : findUserById allUsers input.performerId with
    | none =>
      rw [Option.elim_none]
      exact fun e he => Or.inl he
    | some performer =>
      rw [Option.elim_some]
      simp only [List.foldl_cons, List.foldl_nil]
      intro e he
      rcases mem_processChannel _ _ _ _ _ e he with h | ⟨hs, hnz⟩
      · rcases mem_processChannel _ _ _ _ _ e h with h2 | ⟨hs2, hnz2⟩
        · rcases mem_processChannel _ _ _ _ _ e h2 with h3 | ⟨hs3, hnz3⟩
          · exact Or.inl h3
          · exact Or.inr ⟨performer, rfl, hs3 ▸ hnz3⟩
        · exact Or.inr ⟨performer, rfl, hs2 ▸ hnz2⟩
      · exact Or.inr ⟨performer, rfl, hs ▸ hnz⟩

theorem mem_foldl_processInput (allUsers : List User) :
    ∀ (l : List BatchInput) (rm : List CalculationResult),
      ∀ e ∈ l.foldl (processInput allUsers) rm,
        e ∈ rm ∨ ∃ i ∈ l, ∃ performer,
          findUserById allUsers i.performerId = some performer ∧
          channelAmount performer i.amounts e.source ≠ 0 := by
  intro l
  induction l with
  | nil => exact fun rm e he => Or.inl he
  | cons z t ih =>
    intro rm e he
    rw [List.foldl_cons] at he
    rcases ih _ e he with h | ⟨i, hi, performer, hf, hnz⟩
    · rcases mem_processInput _ _ _ e h with h2 | ⟨performer, hf, hnz⟩
      · exact Or.inl h2
      · exact Or.inr ⟨z, List.mem_cons_self z t, performer, hf, hnz⟩
    · exact Or.inr ⟨i, List.mem_cons_of_mem z hi, performer, hf, hnz⟩

end SourceLemmas

section ChildlessLemmas

/-- A member found by id carries that id (`find(u => u.id === k)`). -/
theorem findUserById_id :
    ∀ (allUsers : List User) (k : String) (u : User),
      findUserById allUsers k = some u → u.id = k := by
  intro allUsers
  induction allUsers with
  | nil => intro k u h; simp [findUserById] at h
  | cons v rest ih =>
    intro k u h
    rw [findUserById] at h
    by_cases hv : v.id = k
    · rw [if_pos hv] at h
      cases h
      exact hv
    · rw [if_neg hv] at h
      exact ih k u h

/-- A member with no children has a zero children sum (`totalDeduction`
over an empty child list). -/
theorem childrenSum_of_childless (inputs : List BatchInput) (allUsers : List User)
    (uid : String) (h : ∀ u ∈ allUsers, u.parentId ≠ some uid) :
    childrenSum inputs allUsers uid = ⟨0, 0, 0⟩ := by
  have hf : allUsers.filter (fun u => u.parentId = some uid) = [] := by
    rw [List.filter_eq_nil_iff]
    intro u hu
    simp only [decide_eq_true_eq]
    exact h u hu
  rw [childrenSum, hf]
  rfl

end ChildlessLemmas

section Claims

/-- C7: for every batch and member list with unique, non-empty member ids,
removing one leaf input changes only entries attributable to that input's
lineage: for any member id `m` outside the removed input's lineage, the
entries produced for `m` are identical between the two runs. -/
theorem c7_batch_independence (allUsers : List User) (pre post : List BatchInput)
    (x : BatchInput) (m : String)
    (hnd : (allUsers.map User.id).Nodup)
    (hne : ∀ u ∈ allUsers, u.id ≠ "")
    (hm : m ∉ lineageIds allUsers x.performerId) :
    (calculateBatchCommission (pre ++ x :: post) allUsers).filter
        (fun e => e.userId = m) =
      (calculateBatchCommission (pre ++ post) allUsers).filter
        (fun e => e.userId = m) := by
  rw [calculateBatchCommission, calculateBatchCommission,
    filter_sortByAmountDesc, filter_sortByAmountDesc]
  refine congrArg sortByAmountDesc ?_
  refine filter_userId_foldl m allUsers
    ((netInputs (pre ++ x :: post) allUsers).length +
      (netInputs (pre ++ post) allUsers).length) _ _ [] [] le_rfl ?_ rfl
  exact filter_netInputs_remove allUsers pre post x m hnd hne hm

theorem c7_batch_independence_witness :
    (calculateBatchCommission
        ([⟨"Z", ⟨50, 0, 0⟩⟩] ++ ⟨"B", ⟨100, 0, 0⟩⟩ :: [])
        [⟨"A", "A", none, 1, 0, 0⟩, ⟨"B", "B", some "A", 1, 0, 0⟩,
          ⟨"Z", "Z", none, 2, 0, 0⟩]).filter (fun e => e.userId = "Z") =
      (calculateBatchCommission ([⟨"Z", ⟨50, 0, 0⟩⟩] ++ [])
        [⟨"A", "A", none, 1, 0, 0⟩, ⟨"B", "B", some "A", 1, 0, 0⟩,
          ⟨"Z", "Z", none, 2, 0, 0⟩]).filter (fun e => e.userId = "Z") :=
  c7_batch_independence
    [⟨"A", "A", none, 1, 0, 0⟩, ⟨"B", "B", some "A", 1, 0, 0⟩,
      ⟨"Z", "Z", none, 2, 0, 0⟩]
    [⟨"Z", ⟨50, 0, 0⟩⟩] [] ⟨"B", ⟨100, 0, 0⟩⟩ "Z"
    (by decide) (by decide) (by decide)

/-- C9: the computation handles malformed data as data, never aborting: an
input whose performer id matches no member is skipped silently (removing it
changes nothing), and a batch containing a negative rate, a broken parent
reference and an unknown performer still completes, producing the entries of
every well-formed input. -/
theorem c9_failure_semantics :
    (∀ (allUsers : List User) (pre post : List BatchInput) (x : BatchInput),
      (∀ u ∈ allUsers, u.id ≠ x.performerId) →
      calculateBatchCommission (pre ++ x :: post) allUsers =
        calculateBatchCommission (pre ++ post) allUsers) ∧
    (calculateBatchCommission
        [⟨"A", ⟨100, 0, 0⟩⟩, ⟨"Q", ⟨7, 7, 7⟩⟩, ⟨"Z", ⟨50, 0, 0⟩⟩]
        [⟨"A", "A", some "ghost", -5, 0, 0⟩, ⟨"Z", "Z", none, 2, 0, 0⟩]).map
        (fun e => (e.userId, e.amount, e.role)) =
      [("Z", 1, Role.self), ("A", 0, Role.self), ("Z", 0, Role.self),
        ("A", -5, Role.self)] := by
  constructor
  · intro allUsers pre post x hx
    rw [calculateBatchCommission, calculateBatchCommission]
    have hbase : ∀ i, netOf (pre ++ x :: post) allUsers i =
        netOf (pre ++ post) allUsers i := by
      intro i
      exact netOf_remove pre post x allUsers i fun Q _ c hc _ => hx c hc
    have hnets : netInputs (pre ++ x :: post) allUsers =
        netInputs (pre ++ post) allUsers := by
      rw [netInputs, netInputs, netLoop_append, netLoop_append]
      have hxa : netLoop (pre ++ x :: post) allUsers (x :: post) =
          netLoop (pre ++ x :: post) allUsers post := by
        rw [netLoop, netOf_unknown _ _ _ hx, Option.elim_none]
      rw [hxa, netLoop_congr (pre ++ x :: post) (pre ++ post) allUsers pre
          fun i _ => hbase i,
        netLoop_congr (pre ++ x :: post) (pre ++ post) allUsers post
          fun i _ => hbase i]
    rw [hnets]
  · norm_num [calculateBatchCommission, netInputs, netLoop, netOf, childrenSum,
      inputMapGet, findUserById, findInputByPid, processInput, processChannel,
      channelAmount, upperWalk, addToResult, sortByAmountDesc, insertDesc, rateOf,
      jsRound, List.foldl_cons, List.filter_cons]
    try norm_num [processInput, processChannel, channelAmount, upperWalk,
      addToResult, findUserById, rateOf, jsRound, sortByAmountDesc, insertDesc,
      List.foldl_cons, List.filter_cons]
    try simp [processInput, processChannel, channelAmount, upperWalk, addToResult,
      findUserById, rateOf, insertDesc, List.foldl_cons, List.filter_cons]
    try norm_num [processInput, processChannel, channelAmount, upperWalk,
      addToResult, findUserById, rateOf, jsRound, sortByAmountDesc, insertDesc,
      List.foldl_cons, List.filter_cons]
    try simp [processInput, processChannel, channelAmount, upperWalk, addToResult,
      findUserById, rateOf, insertDesc, List.foldl_cons, List.filter_cons]
    try norm_num [upperWalk, addToResult, findUserById, rateOf, jsRound,
      sortByAmountDesc, insertDesc, List.foldl_cons, List.filter_cons]
    try simp [addToResult, insertDesc, List.filter_cons]
    try norm_num [insertDesc, List.filter_cons]
    try simp [insertDesc, List.filter_cons]
    try norm_num [insertDesc, List.filter_cons]

theorem c9_failure_semantics_witness :
    calculateBatchCommission
        ([] ++ (⟨"nobody", ⟨1, 2, 3⟩⟩ : BatchInput) ::
          [(⟨"Z", ⟨50, 0, 0⟩⟩ : BatchInput)])
        [⟨"Z", "Z", none, 2, 0, 0⟩] =
      calculateBatchCommission ([] ++ [(⟨"Z", ⟨50, 0, 0⟩⟩ : BatchInput)])
        [⟨"Z", "Z", none, 2, 0, 0⟩] :=
  c9_failure_semantics.1 [⟨"Z", "Z", none, 2, 0, 0⟩] [] [⟨"Z", ⟨50, 0, 0⟩⟩]
    ⟨"nobody", ⟨1, 2, 3⟩⟩ (by decide)

/-- C10: the engine is deterministic and pure in its two inputs: two calls
with equal input lists and equal member lists produce identical result
lists, order included. -/
theorem c10_deterministic (inputs₁ inputs₂ : List BatchInput)
    (users₁ users₂ : List User) (hi : inputs₁ = inputs₂) (hu : users₁ = users₂) :
    calculateBatchCommission inputs₁ users₁ = calculateBatchCommission inputs₂ users₂ := by
  rw [hi, hu]

theorem c10_deterministic_witness :
    calculateBatchCommission [⟨"B", ⟨100, 0, 0⟩⟩]
        [⟨"A", "A", none, 2, 0, 0⟩, ⟨"B", "B", some "A", 1, 0, 0⟩] =
      calculateBatchCommission [⟨"B", ⟨100, 0, 0⟩⟩]
        [⟨"A", "A", none, 2, 0, 0⟩, ⟨"B", "B", some "A", 1, 0, 0⟩] :=
  c10_deterministic _ _ _ _ rfl rfl

/-- C2: before distribution every input is replaced by its NET amounts (own
input minus the direct children's inputs per channel, inputs with all-zero
NET dropped), exactly as the spec words it, and consequently the entries
produced for one member depend on the inputs supplied for other members:
adding a child's input changes the parent's casino entry from 1 to 17/20. -/
theorem c2_net_inputs :
    (∀ (inputs : List BatchInput) (allUsers : List User) (i : BatchInput),
      netOf inputs allUsers i = netSpecOf inputs allUsers i) ∧
    ((calculateBatchCommission [⟨"P", ⟨100, 0, 0⟩⟩]
        [⟨"P", "P", none, 1, 0, 0⟩, ⟨"C", "C", some "P", 1/2, 0, 0⟩]).filter
          (fun e => e.userId = "P" ∧ e.source = Source.casino)).map
        (fun e => e.amount) = [1] ∧
    ((calculateBatchCommission [⟨"P", ⟨100, 0, 0⟩⟩, ⟨"C", ⟨30, 0, 0⟩⟩]
        [⟨"P", "P", none, 1, 0, 0⟩, ⟨"C", "C", some "P", 1/2, 0, 0⟩]).filter
          (fun e => e.userId = "P" ∧ e.source = Source.casino)).map
        (fun e => e.amount) = [17/20] := by
  refine ⟨netOf_eq_netSpecOf, ?_, ?_⟩
  · norm_num [calculateBatchCommission, netInputs, netLoop, netOf, childrenSum,
      inputMapGet, findUserById, findInputByPid, processInput, processChannel,
      channelAmount, upperWalk, addToResult, sortByAmountDesc, insertDesc, rateOf,
      jsRound, List.foldl_cons, List.filter_cons]
    try norm_num [processInput, processChannel, channelAmount, upperWalk,
      addToResult, findUserById, rateOf, jsRound, sortByAmountDesc, insertDesc,
      List.foldl_cons, List.filter_cons]
    try simp [processInput, processChannel, channelAmount, upperWalk, addToResult,
      findUserById, rateOf, insertDesc, List.foldl_cons, List.filter_cons]
    try norm_num [processInput, processChannel, channelAmount, upperWalk,
      addToResult, findUserById, rateOf, jsRound, sortByAmountDesc, insertDesc,
      List.foldl_cons, List.filter_cons]
    try simp [processInput, processChannel, channelAmount, upperWalk, addToResult,
      findUserById, rateOf, insertDesc, List.foldl_cons, List.filter_cons]
    try norm_num [upperWalk, addToResult, findUserById, rateOf, jsRound,
      sortByAmountDesc, insertDesc, List.foldl_cons, List.filter_cons]
    try simp [addToResult, insertDesc, List.filter_cons]
    try norm_num [insertDesc, List.filter_cons]
    try simp [insertDesc, List.filter_cons]
    try norm_num [insertDesc, List.filter_cons]
  · norm_num [calculateBatchCommission, netInputs, netLoop, netOf, childrenSum,
      inputMapGet, findUserById, findInputByPid, processInput, processChannel,
      channelAmount, upperWalk, addToResult, sortByAmountDesc, insertDesc, rateOf,
      jsRound, List.foldl_cons, List.filter_cons]
    try norm_num [processInput, processChannel, channelAmount, upperWalk,
      addToResult, findUserById, rateOf, jsRound, sortByAmountDesc, insertDesc,
      List.foldl_cons, List.filter_cons]
    try simp [processInput, processChannel, channelAmount, upperWalk, addToResult,
      findUserById, rateOf, insertDesc, List.foldl_cons, List.filter_cons]
    try norm_num [processInput, processChannel, channelAmount, upperWalk,
      addToResult, findUserById, rateOf, jsRound, sortByAmountDesc, insertDesc,
      List.foldl_cons, List.filter_cons]
    try simp [processInput, processChannel, channelAmount, upperWalk, addToResult,
      findUserById, rateOf, insertDesc, List.foldl_cons, List.filter_cons]
    try norm_num [upperWalk, addToResult, findUserById, rateOf, jsRound,
      sortByAmountDesc, insertDesc, List.foldl_cons, List.filter_cons]
    try simp [addToResult, insertDesc, List.filter_cons]
    try norm_num [insertDesc, List.filter_cons]
    try simp [insertDesc, List.filter_cons]
    try norm_num [insertDesc, List.filter_cons]


/-- C1 (amended): the engine performs no fee inversion and derives no
implied rolling volume.  In the two-level hierarchy (root `A` rate `R`,
leaf `B` rate `r`) with a casino fee input `V ≠ 0` for the leaf, whenever
the rounded differential `round((R-r)*10^4)/10^4` is positive the root
receives exactly one casino entry, an `upper` entry of amount
`V * (diff/100)` computed directly on the input amount, not
`V/(r/100)*(R/100) - V`. -/
theorem c1_rolling_inversion (R r V : ℚ) (hV : V ≠ 0)
    (hd : 0 < jsRound ((R - r) * 10000)) :
    ((calculateBatchCommission [⟨"B", ⟨V, 0, 0⟩⟩]
        [⟨"A", "A", none, R, 0, 0⟩, ⟨"B", "B", some "A", r, 0, 0⟩]).filter
          (fun e => e.userId = "A")).map
        (fun e => (e.amount, e.role, e.source)) =
      [(V * ((jsRound ((R - r) * 10000) : ℚ) / 10000 / 100), Role.upper,
        Source.casino)] := by
  rw [calculateBatchCommission, filter_sortByAmountDesc, twoLevel_netInputs R r V hV]
  by_cases hr : r = 0
  · subst hr
    rw [twoLevel_fold_pos_zero R V hV (by simpa using hd)]
    simp [List.filter_cons, sortByAmountDesc, insertDesc]
  · rw [twoLevel_fold_pos R r V hV hr hd]
    simp [List.filter_cons, sortByAmountDesc, insertDesc]

/-- Witness for C1 (amended) at `R = 2`, `r = 1`, `V = 100`. -/
theorem c1_rolling_inversion_witness :
    (100 : ℚ) ≠ 0 ∧ 0 < jsRound (((2 : ℚ) - 1) * 10000) ∧
    ((calculateBatchCommission [⟨"B", ⟨100, 0, 0⟩⟩]
        [⟨"A", "A", none, 2, 0, 0⟩, ⟨"B", "B", some "A", 1, 0, 0⟩]).filter
          (fun e => e.userId = "A")).map
        (fun e => (e.amount, e.role, e.source)) =
      [(100 * ((jsRound (((2 : ℚ) - 1) * 10000) : ℚ) / 10000 / 100), Role.upper,
        Source.casino)] :=
  ⟨by norm_num, by norm_num [jsRound],
    c1_rolling_inversion 2 1 100 (by norm_num) (by norm_num [jsRound])⟩

/-- C1 (counterexample): for root rate 2%, leaf rate 1% and fee 100 the
engine produces a root casino amount of 1, while the quoted fee-inversion
formula `F/(r/100)*(R/100) - F` yields 100; the difference is far outside
the claimed 0.01 tolerance. -/
theorem c1_rolling_inversion_counterexample :
    ((calculateBatchCommission [⟨"B", ⟨100, 0, 0⟩⟩]
        [⟨"A", "A", none, 2, 0, 0⟩, ⟨"B", "B", some "A", 1, 0, 0⟩]).filter
          (fun e => e.userId = "A")).map (fun e => e.amount) = [1] ∧
    ¬|(1 : ℚ) - (100 / ((1 : ℚ) / 100) * (2 / 100) - 100)| ≤ 1 / 100 := by
  constructor
  · rw [calculateBatchCommission, filter_sortByAmountDesc,
      twoLevel_netInputs 2 1 100 (by norm_num),
      twoLevel_fold_pos 2 1 100 (by norm_num) (by norm_num) (by norm_num [jsRound])]
    simp [List.filter_cons, sortByAmountDesc, insertDesc]
    norm_num [jsRound]
  · rw [abs_le]
    norm_num

/-- C4 (amended): a non-positive rounded rate differential produces no
ancestor entry at all: no zero-amount audit entry at equal rates and no
negative-amount entry when the ancestor rate is below the leaf rate
(`if (diffRate > 0)` guards every upper emission). -/
theorem c4_upper_suppression (R r V : ℚ) (hV : V ≠ 0)
    (hd : jsRound ((R - r) * 10000) ≤ 0) :
    (calculateBatchCommission [⟨"B", ⟨V, 0, 0⟩⟩]
        [⟨"A", "A", none, R, 0, 0⟩, ⟨"B", "B", some "A", r, 0, 0⟩]).filter
      (fun e => e.userId = "A") = [] := by
  rw [calculateBatchCommission, filter_sortByAmountDesc, twoLevel_netInputs R r V hV]
  by_cases hr : r = 0
  · subst hr
    rw [twoLevel_fold_nonpos_zero R V hV (by simpa using hd)]
    simp [List.filter_cons, sortByAmountDesc]
  · rw [twoLevel_fold_nonpos R r V hV hr hd]
    simp [List.filter_cons, sortByAmountDesc]

/-- Witness for C4 (amended) at `R = 1`, `r = 2`, `V = 100`. -/
theorem c4_upper_suppression_witness :
    (100 : ℚ) ≠ 0 ∧ jsRound (((1 : ℚ) - 2) * 10000) ≤ 0 ∧
    (calculateBatchCommission [⟨"B", ⟨100, 0, 0⟩⟩]
        [⟨"A", "A", none, 1, 0, 0⟩, ⟨"B", "B", some "A", 2, 0, 0⟩]).filter
      (fun e => e.userId = "A") = [] :=
  ⟨by norm_num, by norm_num [jsRound],
    c4_upper_suppression 1 2 100 (by norm_num) (by norm_num [jsRound])⟩

/-- C4 (counterexample): with positive casino rolling the engine emits no
zero-amount entry for an equal-rate ancestor (rates 1% and 1%), and a
negative differential (root 1%, leaf 2%) is suppressed entirely rather
than reported as a negative amount. -/
theorem c4_upper_suppression_counterexample :
    (calculateBatchCommission [⟨"B", ⟨100, 0, 0⟩⟩]
        [⟨"A", "A", none, 1, 0, 0⟩, ⟨"B", "B", some "A", 1, 0, 0⟩]).filter
      (fun e => e.userId = "A") = [] ∧
    (calculateBatchCommission [⟨"B", ⟨100, 0, 0⟩⟩]
        [⟨"A", "A", none, 1, 0, 0⟩, ⟨"B", "B", some "A", 2, 0, 0⟩]).filter
      (fun e => e.userId = "A") = [] := by
  constructor
  · rw [calculateBatchCommission, filter_sortByAmountDesc,
      twoLevel_netInputs 1 1 100 (by norm_num),
      twoLevel_fold_nonpos 1 1 100 (by norm_num) (by norm_num) (by norm_num [jsRound])]
    simp [List.filter_cons, sortByAmountDesc]
  · rw [calculateBatchCommission, filter_sortByAmountDesc,
      twoLevel_netInputs 1 2 100 (by norm_num),
      twoLevel_fold_nonpos 1 2 100 (by norm_num) (by norm_num) (by norm_num [jsRound])]
    simp [List.filter_cons, sortByAmountDesc]

/-- C5 (amended): for a leaf input with casino fee `V ≠ 0` and leaf casino
rate 0, the leaf itself receives exactly one entry, a zero-amount `self`
casino entry with a non-empty breakdown (as the spec says), but ancestors
are **not** skipped: the root receives an `upper` casino entry of amount
`V * (round(R*10^4)/10^4/100)` whenever its rounded rate is positive
(the engine treats the full fee as the distributable base; it never
derives rolling by dividing by the zero rate). -/
theorem c5_zero_rate (R V : ℚ) (hV : V ≠ 0) (hd : 0 < jsRound (R * 10000)) :
    ((calculateBatchCommission [⟨"B", ⟨V, 0, 0⟩⟩]
        [⟨"A", "A", none, R, 0, 0⟩, ⟨"B", "B", some "A", 0, 0, 0⟩]).filter
          (fun e => e.userId = "B")).map
        (fun e => (e.amount, e.role, e.source)) = [(0, Role.self, Source.casino)] ∧
    (∀ e ∈ calculateBatchCommission [⟨"B", ⟨V, 0, 0⟩⟩]
        [⟨"A", "A", none, R, 0, 0⟩, ⟨"B", "B", some "A", 0, 0, 0⟩],
      e.userId = "B" → e.breakdown ≠ "") ∧
    ((calculateBatchCommission [⟨"B", ⟨V, 0, 0⟩⟩]
        [⟨"A", "A", none, R, 0, 0⟩, ⟨"B", "B", some "A", 0, 0, 0⟩]).filter
          (fun e => e.userId = "A")).map
        (fun e => (e.amount, e.role, e.source)) =
      [(V * ((jsRound (R * 10000) : ℚ) / 10000 / 100), Role.upper,
        Source.casino)] := by
  have hnet := twoLevel_netInputs R 0 V hV
  have hfold := twoLevel_fold_pos_zero R V hV hd
  refine ⟨?_, ?_, ?_⟩
  · rw [calculateBatchCommission, filter_sortByAmountDesc, hnet, hfold]
    simp [List.filter_cons, sortByAmountDesc, insertDesc]
  · intro e he hB
    rw [calculateBatchCommission, hnet, hfold] at he
    have hm := (List.Perm.mem_iff (sortByAmountDesc_perm _)).mp he
    simp only [List.mem_cons, List.not_mem_nil, or_false] at hm
    rcases hm with h | h
    · rw [h]
      dsimp only
      exact selfBreakdownStr_ne_empty _ _ _ _ _ _ _ _
    · rw [h] at hB
      simp at hB
  · rw [calculateBatchCommission, filter_sortByAmountDesc, hnet, hfold]
    simp [List.filter_cons, sortByAmountDesc, insertDesc]

/-- Witness for C5 (amended) at `R = 1`, `V = 100`. -/
theorem c5_zero_rate_witness :
    (100 : ℚ) ≠ 0 ∧ 0 < jsRound ((1 : ℚ) * 10000) ∧
    (((calculateBatchCommission [⟨"B", ⟨100, 0, 0⟩⟩]
        [⟨"A", "A", none, 1, 0, 0⟩, ⟨"B", "B", some "A", 0, 0, 0⟩]).filter
          (fun e => e.userId = "B")).map
        (fun e => (e.amount, e.role, e.source)) = [(0, Role.self, Source.casino)] ∧
    (∀ e ∈ calculateBatchCommission [⟨"B", ⟨100, 0, 0⟩⟩]
        [⟨"A", "A", none, 1, 0, 0⟩, ⟨"B", "B", some "A", 0, 0, 0⟩],
      e.userId = "B" → e.breakdown ≠ "") ∧
    ((calculateBatchCommission [⟨"B", ⟨100, 0, 0⟩⟩]
        [⟨"A", "A", none, 1, 0, 0⟩, ⟨"B", "B", some "A", 0, 0, 0⟩]).filter
          (fun e => e.userId = "A")).map
        (fun e => (e.amount, e.role, e.source)) =
      [(100 * ((jsRound ((1 : ℚ) * 10000) : ℚ) / 10000 / 100), Role.upper,
        Source.casino)]) :=
  ⟨by norm_num, by norm_num [jsRound],
    c5_zero_rate 1 100 (by norm_num) (by norm_num [jsRound])⟩

/-- C5 (counterexample): leaf rate 0 and fee 100 under a root with rate 1%
produce an `upper` casino entry of amount 1 for the root, contradicting
the spec sentence that no upper casino entries exist for any ancestor. -/
theorem c5_zero_rate_counterexample :
    ((calculateBatchCommission [⟨"B", ⟨100, 0, 0⟩⟩]
        [⟨"A", "A", none, 1, 0, 0⟩, ⟨"B", "B", some "A", 0, 0, 0⟩]).filter
          (fun e => e.userId = "A")).map
        (fun e => (e.amount, e.role, e.source)) =
      [(1, Role.upper, Source.casino)] := by
  rw [calculateBatchCommission, filter_sortByAmountDesc,
    twoLevel_netInputs 1 0 100 (by norm_num),
    twoLevel_fold_pos_zero 1 100 (by norm_num) (by norm_num [jsRound])]
  simp [List.filter_cons, sortByAmountDesc, insertDesc]
  norm_num [jsRound]


/-- C3 (amended): the engine merges entries by `(userId, source)`: the
result list never contains two entries with the same user id and source;
each key occurs at most once (`addToResult` accumulates into the keyed
`Map` entry instead of appending a duplicate). -/
theorem c3_unique_keys (inputs : List BatchInput) (allUsers : List User) :
    ((calculateBatchCommission inputs allUsers).map
      (fun e => (e.userId, e.source))).Nodup := by
  rw [calculateBatchCommission]
  exact ((sortByAmountDesc_perm _).map _).nodup_iff.mpr
    (nodupKeys_foldl allUsers _ [] (by simp))

/-- C3 (counterexample): two leaf inputs (`B`: 100, `C`: 200, both children
of `A` at half of its casino rate) each produce an upper casino share for
`A`, yet the output holds exactly one merged `A`-casino entry of amount
`1/2 + 1 = 3/2`, not separate per-leaf entries. -/
theorem c3_unique_keys_counterexample :
    ((calculateBatchCommission [⟨"B", ⟨100, 0, 0⟩⟩, ⟨"C", ⟨200, 0, 0⟩⟩]
        [⟨"A", "A", none, 1, 0, 0⟩, ⟨"B", "B", some "A", 1/2, 0, 0⟩,
          ⟨"C", "C", some "A", 1/2, 0, 0⟩]).filter
          (fun e => e.userId = "A" ∧ e.source = Source.casino)).map
        (fun e => (e.amount, e.role)) = [(3/2, Role.upper)] := by
  norm_num [calculateBatchCommission, netInputs, netLoop, netOf, childrenSum,
    inputMapGet, findUserById, findInputByPid, processInput, processChannel,
    channelAmount, upperWalk, addToResult, sortByAmountDesc, insertDesc, rateOf,
    jsRound, List.foldl_cons, List.filter_cons]
  try norm_num [processInput, processChannel, channelAmount, upperWalk,
    addToResult, findUserById, rateOf, jsRound, sortByAmountDesc, insertDesc,
    List.foldl_cons, List.filter_cons]
  try simp [processInput, processChannel, channelAmount, upperWalk, addToResult,
    findUserById, rateOf, insertDesc, List.foldl_cons, List.filter_cons]
  try norm_num [processInput, processChannel, channelAmount, upperWalk,
    addToResult, findUserById, rateOf, jsRound, sortByAmountDesc, insertDesc,
    List.foldl_cons, List.filter_cons]
  try simp [processInput, processChannel, channelAmount, upperWalk, addToResult,
    findUserById, rateOf, insertDesc, List.foldl_cons, List.filter_cons]
  try norm_num [upperWalk, addToResult, findUserById, rateOf, jsRound,
    sortByAmountDesc, insertDesc, List.foldl_cons, List.filter_cons]
  try simp [addToResult, insertDesc, List.filter_cons]
  try norm_num [insertDesc, List.filter_cons]
  try simp [insertDesc, List.filter_cons]
  try norm_num [insertDesc, List.filter_cons]


/-- C6 (amended): a channel produces entries only from a nonzero distributed
base.  If for every NET input the performing member would distribute a zero
base on channel `typ` (for casino and slot the NET fee itself, for losing
the fee minus the rolling expenses `casino*(casinoRate/100) +
slot*(slotRate/100)`), then the output has no entries of that channel at
all.  A zero channel FEE alone does not guarantee this for losing, which is
what the original claim asserted. -/
theorem c6_zero_channel (inputs : List BatchInput) (allUsers : List User)
    (typ : Source)
    (h : ∀ i ∈ netInputs inputs allUsers, ∀ performer,
      findUserById allUsers i.performerId = some performer →
      channelAmount performer i.amounts typ = 0) :
    (calculateBatchCommission inputs allUsers).filter
      (fun e => e.source = typ) = [] := by
  rw [calculateBatchCommission, List.filter_eq_nil_iff]
  intro e he
  have hmem : e ∈ (netInputs inputs allUsers).foldl (processInput allUsers) [] :=
    (List.Perm.mem_iff (sortByAmountDesc_perm _)).mp he
  rcases mem_foldl_processInput allUsers _ [] e hmem with h0 | ⟨i, hi, p, hf, hnz⟩
  · simp at h0
  · intro hsrc
    simp only [decide_eq_true_eq] at hsrc
    exact hnz (hsrc ▸ h i hi p hf)

/-- Witness for C6 (amended): a casino-only input produces no slot entries. -/
theorem c6_zero_channel_witness :
    (∀ i ∈ netInputs [⟨"B", ⟨100, 0, 0⟩⟩] [⟨"B", "B", none, 5, 5, 5⟩],
      ∀ performer,
        findUserById [⟨"B", "B", none, 5, 5, 5⟩] i.performerId = some performer →
        channelAmount performer i.amounts Source.slot = 0) ∧
    (calculateBatchCommission [⟨"B", ⟨100, 0, 0⟩⟩]
        [⟨"B", "B", none, 5, 5, 5⟩]).filter
      (fun e => e.source = Source.slot) = [] := by
  have hyp : ∀ i ∈ netInputs [⟨"B", ⟨100, 0, 0⟩⟩] [⟨"B", "B", none, 5, 5, 5⟩],
      ∀ performer,
        findUserById [⟨"B", "B", none, 5, 5, 5⟩] i.performerId = some performer →
        channelAmount performer i.amounts Source.slot = 0 := by
    intro i hi performer hp
    simp [netInputs, netLoop, netOf, childrenSum, inputMapGet, findInputByPid,
      findUserById] at hi
    subst hi
    simp [findUserById] at hp
    subst hp
    simp [channelAmount]
  exact ⟨hyp, c6_zero_channel _ _ _ hyp⟩

/-- C6 (counterexample): a leaf input with losing fee 0 (casino 100 at rate
10%, losing rate 50%) still produces a losing entry of amount `-5`: the
adjusted losing base `0 - 100*(10/100) = -10` is nonzero. -/
theorem c6_zero_channel_counterexample :
    ((calculateBatchCommission [⟨"B", ⟨100, 0, 0⟩⟩]
        [⟨"B", "B", none, 10, 0, 50⟩]).filter
          (fun e => e.source = Source.losing)).map (fun e => e.amount) = [-5] := by
  norm_num [calculateBatchCommission, netInputs, netLoop, netOf, childrenSum,
    inputMapGet, findUserById, findInputByPid, processInput, processChannel,
    channelAmount, upperWalk, addToResult, sortByAmountDesc, insertDesc, rateOf,
    jsRound, List.foldl_cons, List.filter_cons]
  try norm_num [processInput, processChannel, channelAmount, upperWalk,
    addToResult, findUserById, rateOf, jsRound, sortByAmountDesc, insertDesc,
    List.foldl_cons, List.filter_cons]
  try simp [processInput, processChannel, channelAmount, upperWalk, addToResult,
    findUserById, rateOf, insertDesc, List.foldl_cons, List.filter_cons]
  try norm_num [upperWalk, addToResult, findUserById, rateOf, jsRound,
    sortByAmountDesc, insertDesc, List.foldl_cons, List.filter_cons]
  try simp [addToResult, insertDesc, List.filter_cons]
  try norm_num [insertDesc, List.filter_cons]
  try simp [insertDesc, List.filter_cons]
  try norm_num [insertDesc, List.filter_cons]


/-- C8: for a leaf input with casino = slot = 0 and losing = `L ≠ 0`
performed by a childless member `M` whose upline does not revisit `M`:
the NET pass keeps the input as exactly `(0, 0, L)` (the rolling-fee
deduction is zero, so the losing base is `L`), every produced entry is a
losing entry, `M` itself receives exactly its self share `L*(losingRate/100)`,
every ancestor entry is `L` times a positive rounded differential over 100
(the base at every level is `L` itself), and for negative `L` (with a
non-negative rate for `M`) every amount in the batch is non-positive:
negative bases propagate as negative profit, never clamped to zero. -/
theorem c8_losing_net (allUsers : List User) (pid : String) (L : ℚ) (M : User)
    (res : List CalculationResult)
    (hM : findUserById allUsers pid = some M)
    (hchildless : ∀ u ∈ allUsers, u.parentId ≠ some M.id)
    (hMv : M.id ∉ visitedIds allUsers allUsers.length M.parentId)
    (hL : L ≠ 0)
    (hres : res = calculateBatchCommission [⟨pid, ⟨0, 0, L⟩⟩] allUsers) :
    netInputs [⟨pid, ⟨0, 0, L⟩⟩] allUsers = [⟨M.id, ⟨0, 0, L⟩⟩] ∧
    (∀ e ∈ res, e.source = Source.losing) ∧
    (res.filter (fun e => e.userId = M.id)).map (fun e => (e.amount, e.role)) =
      [(L * (M.losingRate / 100), Role.self)] ∧
    (∀ e ∈ res, e.role = Role.upper → ∃ d : ℚ, 0 < d ∧ e.amount = L * (d / 100)) ∧
    (L < 0 → 0 ≤ M.losingRate → ∀ e ∈ res, e.amount ≤ 0) := by
  have hid : M.id = pid := findUserById_id allUsers pid M hM
  have hcs : childrenSum [⟨pid, ⟨0, 0, L⟩⟩] allUsers M.id = ⟨0, 0, 0⟩ :=
    childrenSum_of_childless _ _ _ hchildless
  have hM2 : findUserById allUsers M.id = some M := by rw [hid]; exact hM
  have hnet : netInputs [⟨pid, ⟨0, 0, L⟩⟩] allUsers = [⟨M.id, ⟨0, 0, L⟩⟩] := by
    simp [netInputs, netLoop, netOf, hM, hcs, hL]
  have hca : channelAmount M ⟨0, 0, L⟩ Source.losing = L := by
    simp [channelAmount]
  have hfold : ([⟨M.id, ⟨0, 0, L⟩⟩] : List BatchInput).foldl
      (processInput allUsers) [] =
      upperWalk allUsers Source.losing L M.name allUsers.length M.losingRate
        M.parentId
        [⟨M.id, M.name, L * (M.losingRate / 100), Role.self, Source.losing,
          selfBreakdownStr M Source.losing L 0 0 L M.losingRate
            (L * (M.losingRate / 100))⟩] := by
    simp only [List.foldl_cons, List.foldl_nil, processInput, hM2,
      Option.elim_some]
    rw [if_neg (by simp [hL])]
    rw [processChannel_skip allUsers M ⟨0, 0, L⟩ [] Source.casino
        (by simp [channelAmount]),
      processChannel_skip allUsers M ⟨0, 0, L⟩ [] Source.slot
        (by simp [channelAmount]),
      processChannel_unfold allUsers M ⟨0, 0, L⟩ [] Source.losing
        (by simp [channelAmount, hL])]
    simp only [channelAmount, rateOf, zero_mul, add_zero, zero_sub, neg_zero,
      sub_zero]
    simp only [addToResult]
  have hresw : res = sortByAmountDesc
      (upperWalk allUsers Source.losing L M.name allUsers.length M.losingRate
        M.parentId
        [⟨M.id, M.name, L * (M.losingRate / 100), Role.self, Source.losing,
          selfBreakdownStr M Source.losing L 0 0 L M.losingRate
            (L * (M.losingRate / 100))⟩]) := by
    rw [hres, calculateBatchCommission, hnet, hfold]
  have hmem : ∀ e ∈ res, e ∈
      upperWalk allUsers Source.losing L M.name allUsers.length M.losingRate
        M.parentId
        [⟨M.id, M.name, L * (M.losingRate / 100), Role.self, Source.losing,
          selfBreakdownStr M Source.losing L 0 0 L M.losingRate
            (L * (M.losingRate / 100))⟩] := by
    intro e he
    rw [hresw] at he
    exact (List.Perm.mem_iff (sortByAmountDesc_perm _)).mp he
  refine ⟨hnet, ?_, ?_, ?_, ?_⟩
  · intro e he
    refine @forall_mem_upperWalk (fun x => x.source = Source.losing) allUsers
      Source.losing L M.name ?_ ?_ _ _ _ _ ?_ e (hmem e he)
    · intro uid un d bd _
      rfl
    · intro x d bd hx _ _
      exact hx
    · intro x hx
      simp only [List.mem_singleton] at hx
      rw [hx]
  · rw [hresw, filter_sortByAmountDesc,
      filter_userId_upperWalk M.id allUsers Source.losing L M.name
        allUsers.length M.losingRate M.parentId _ hMv]
    simp [List.filter_cons, sortByAmountDesc, insertDesc]
  · intro e he
    refine @forall_mem_upperWalk
      (fun x => x.role = Role.upper → ∃ d : ℚ, 0 < d ∧ x.amount = L * (d / 100))
      allUsers Source.losing L M.name ?_ ?_ _ _ _ _ ?_ e (hmem e he)
    · intro uid un d bd hd _
      exact ⟨d, hd, rfl⟩
    · intro x d bd hx hd _ hup
      rcases hx hup with ⟨d0, hd0, heq⟩
      refine ⟨d0 + d, by linarith, ?_⟩
      rw [heq]
      ring
    · intro x hx
      simp only [List.mem_singleton] at hx
      rw [hx]
      intro hup
      simp at hup
  · intro hLneg hMr e he
    refine @forall_mem_upperWalk (fun x => x.amount ≤ 0) allUsers
      Source.losing L M.name ?_ ?_ _ _ _ _ ?_ e (hmem e he)
    · intro uid un d bd hd
      have h100 : (0 : ℚ) ≤ d / 100 := by positivity
      nlinarith
    · intro x d bd hx hd _
      have h100 : (0 : ℚ) ≤ d / 100 := by positivity
      have : L * (d / 100) ≤ 0 := by nlinarith
      simp only []
      linarith [hx]
    · intro x hx
      simp only [List.mem_singleton] at hx
      rw [hx]
      have h100 : (0 : ℚ) ≤ M.losingRate / 100 := by positivity
      nlinarith


/-- Witness for C8: `M` (losing rate 50%) under `A` (losing rate 60%) with
losing input `-1000`. -/
theorem c8_losing_net_witness :
    netInputs [⟨"M", ⟨0, 0, -1000⟩⟩]
        [⟨"A", "A", none, 0, 0, 60⟩, ⟨"M", "M", some "A", 0, 0, 50⟩] =
      [⟨"M", ⟨0, 0, -1000⟩⟩] ∧
    (∀ e ∈ calculateBatchCommission [⟨"M", ⟨0, 0, -1000⟩⟩]
        [⟨"A", "A", none, 0, 0, 60⟩, ⟨"M", "M", some "A", 0, 0, 50⟩],
      e.source = Source.losing) ∧
    ((calculateBatchCommission [⟨"M", ⟨0, 0, -1000⟩⟩]
        [⟨"A", "A", none, 0, 0, 60⟩, ⟨"M", "M", some "A", 0, 0, 50⟩]).filter
          (fun e => e.userId = "M")).map (fun e => (e.amount, e.role)) =
      [(-1000 * ((50 : ℚ) / 100), Role.self)] ∧
    (∀ e ∈ calculateBatchCommission [⟨"M", ⟨0, 0, -1000⟩⟩]
        [⟨"A", "A", none, 0, 0, 60⟩, ⟨"M", "M", some "A", 0, 0, 50⟩],
      e.role = Role.upper → ∃ d : ℚ, 0 < d ∧ e.amount = -1000 * (d / 100)) ∧
    ((-1000 : ℚ) < 0 → (0 : ℚ) ≤ 50 →
      ∀ e ∈ calculateBatchCommission [⟨"M", ⟨0, 0, -1000⟩⟩]
        [⟨"A", "A", none, 0, 0, 60⟩, ⟨"M", "M", some "A", 0, 0, 50⟩],
      e.amount ≤ 0) :=
  c8_losing_net
    [⟨"A", "A", none, 0, 0, 60⟩, ⟨"M", "M", some "A", 0, 0, 50⟩]
    "M" (-1000) ⟨"M", "M", some "A", 0, 0, 50⟩ _
    (by simp [findUserById])
    (by
      intro u hu
      simp only [List.mem_cons, List.not_mem_nil, or_false] at hu
      rcases hu with h | h <;> subst h <;> simp)
    (by simp [visitedIds, findUserById])
    (by norm_num)
    rfl


end Claims

end CommissionCalc
